import Mathlib

/-!
# Verification of the knowledge-graph engine (graph-explorer / node-index)

Shallow embedding, in Lean 4, of the core graph engine of the
`github-knowledge-graph-mcp` repository:

* `src/core/graph-explorer.ts` — `GraphExplorer.exploreGraph`,
  `GraphExplorer.findPath`, `DependencyAnalyzer.findDependencies`,
  `DependencyAnalyzer.findCircularDependenciesInGraph`,
  `DependencyAnalyzer.calculateCycleSeverity`, `GraphExplorer.getNodeDetails`.
* `src/core/node-index.ts` — `NodeIndex.buildIndexes`, `NodeIndex.normalizeId`,
  `NodeIndex.addTrigrams`, `NodeIndex.fuzzySearch`, `NodeIndex.getNode`.

Conventions of the embedding:

* JavaScript `Map` objects are modelled as association lists with
  insertion-order semantics (`mapSet` replaces in place or appends, exactly
  like `Map.set`); `Set` objects as lists with membership checks.
* JavaScript numbers that hold scores are modelled as `ℚ` (the float
  arithmetic involved — `x * 0.3`, `x * 0.6`, divisions by small integers —
  is exact at every comparison the code performs on realistic sizes).
* `async` functions that can `throw` are modelled as `Except String`
  functions; the external collaborators (`GraphStorage.getGraph`,
  `nodeLookup.findNode`) are modelled by passing their result
  (`Option KnowledgeGraph`, `Option GraphNode`) as an argument.
* Loops whose termination is by exhaustion of a finite visited set are
  modelled with an explicit fuel parameter; the callers pass fuel that
  provably suffices (`none` marks the unreachable out-of-fuel case).
* TS field names that are Lean keywords get a trailing underscore
  (`from_`, `type_`).
-/

namespace KGraph

/-- `NodeMetadata` of `src/types/index.ts`, restricted to the fields the
embedded operations read or write. -/
structure NodeMeta where
  originalId : Option String := none
  isExported : Bool := false
  documentation : Option String := none
  deriving DecidableEq, Repr

/-- `GraphNode` of `src/types/index.ts` (`location` is never read by the
embedded operations and is omitted). -/
structure GraphNode where
  id : String
  type_ : String
  name : String
  file : String := ""
  metadata : Option NodeMeta := none
  deriving DecidableEq, Repr

/-- `GraphEdge` of `src/types/index.ts` (metadata omitted: never read).
`from`/`to` are Lean keywords, hence the trailing underscores. -/
structure GraphEdge where
  from_ : String
  to_ : String
  type_ : String
  deriving DecidableEq, Repr

/-- `KnowledgeGraph` of `src/types/index.ts` (descriptive metadata omitted). -/
structure KnowledgeGraph where
  nodes : List GraphNode
  edges : List GraphEdge
  deriving DecidableEq, Repr

/-! ## Association-list model of JavaScript `Map` / `Set` -/

/-- `Map.set`: replace the value at an existing key in place, else append. -/
def mapSet {β : Type} : List (String × β) → String → β → List (String × β)
  | [], k, v => [(k, v)]
  | (k', v') :: rest, k, v =>
    if k' = k then (k', v) :: rest else (k', v') :: mapSet rest k v

/-- `Map.get`: first (and, given `mapSet` discipline, only) binding of a key. -/
def mapGet {β : Type} : List (String × β) → String → Option β
  | [], _ => none
  | (k', v') :: rest, k => if k' = k then some v' else mapGet rest k

/-- `Set.add` on an insertion-ordered set-as-list. -/
def setAdd (s : List String) (x : String) : List String :=
  if s.contains x then s else s ++ [x]

/-- JS `Set` built from a list (insertion order, first occurrence kept);
used for `new Set(xs)` and `Array.from(new Set(xs))`. -/
def jsSetOf {α : Type} [DecidableEq α] (l : List α) : List α :=
  l.foldl (fun acc a => if a ∈ acc then acc else acc ++ [a]) []

/-- `nodeLookup`'s `byId` cache (`node-lookup.ts` `initializeCache`): a JS
`Map` keyed by `node.id`, so for duplicate ids the *last* node wins. -/
def byIdGet (g : KnowledgeGraph) (nodeId : String) : Option GraphNode :=
  g.nodes.foldl (fun acc n => if n.id = nodeId then some n else acc) none

/-! ## `GraphExplorer.exploreGraph` (graph-explorer.ts, first document) -/

inductive Direction
  | outgoing
  | incoming
  | both
  deriving DecidableEq, Repr

/-- The options bag of `exploreGraph`.  A `0` in `depth`/`maxNodes` plays the
role of the JS falsy values (`0` and `undefined` alike): the source applies
`options.depth || 2` and `options.maxNodes || 100`. -/
structure ExploreOptions where
  depth : Nat
  maxNodes : Nat := 0
  relationTypes : List String := []
  direction : Direction := .both
  excludeTypes : List String := []
  includeEdges : Bool := true
  deriving DecidableEq, Repr

structure ExplorationResult where
  nodes : List GraphNode
  edges : List GraphEdge
  rootId : Option String
  exploredDepth : Nat
  truncated : Bool
  totalNodesCount : Nat
  deriving DecidableEq, Repr

/-- BFS working state of `exploreGraph`: `explored` is the
`exploredNodes : Set<string>`, `queue` the `nodesToExplore` array of
`(nodeId, level)` pairs, `resNodes`/`resEdges` the result accumulators. -/
structure ExpSt where
  explored : List String
  queue : List (String × Nat)
  resNodes : List GraphNode
  resEdges : List GraphEdge
  truncated : Bool
  deriving DecidableEq, Repr

/-- The `resultEdges.some(e => e.from === .. && e.to === .. && e.type === ..)`
duplicate check. -/
def edgeRecorded (es : List GraphEdge) (e : GraphEdge) : Bool :=
  es.any fun e2 => e2.from_ = e.from_ && e2.to_ = e.to_ && e2.type_ = e.type_

/-- The edge list `exploreGraph` assembles for one dequeued node: outgoing
and/or incoming edges by `direction`, then the `relationTypes` filter. -/
def edgesFor (g : KnowledgeGraph) (o : ExploreOptions) (nodeId : String) :
    List GraphEdge :=
  let base :=
    (if o.direction = .outgoing ∨ o.direction = .both then
        g.edges.filter (fun e => e.from_ = nodeId) else [])
      ++ (if o.direction = .incoming ∨ o.direction = .both then
        g.edges.filter (fun e => e.to_ = nodeId) else [])
  if o.relationTypes = [] then base
  else base.filter (fun e => o.relationTypes.contains e.type_)

/-- The `for (const edge of edges)` body of `exploreGraph`, including the
`break` once `resultNodes.length >= maxNodes` (which sets `truncated`). -/
def processEdges (g : KnowledgeGraph) (o : ExploreOptions) (maxN : Nat)
    (nodeId : String) (level : Nat) : List GraphEdge → ExpSt → ExpSt
  | [], st => st
  | e :: es, st =>
    let connectedId := if e.from_ = nodeId then e.to_ else e.from_
    if st.explored.contains connectedId then
      let st' :=
        if o.includeEdges && !edgeRecorded st.resEdges e then
          { st with resEdges := st.resEdges ++ [e] }
        else st
      processEdges g o maxN nodeId level es st'
    else
      match byIdGet g connectedId with
      | none => processEdges g o maxN nodeId level es st
      | some cn =>
        if o.excludeTypes.contains cn.type_ then
          processEdges g o maxN nodeId level es st
        else
          let st' : ExpSt :=
            { explored := connectedId :: st.explored
              queue := st.queue ++ [(connectedId, level + 1)]
              resNodes := st.resNodes ++ [cn]
              resEdges := if o.includeEdges then st.resEdges ++ [e] else st.resEdges
              truncated := st.truncated }
          if maxN ≤ st'.resNodes.length then { st' with truncated := true }
          else processEdges g o maxN nodeId level es st'

/-- The `while (nodesToExplore.length > 0 && resultNodes.length < maxNodes)`
loop of `exploreGraph`.  `none` is the out-of-fuel marker (unreachable for
the fuel the caller passes). -/
def exploreLoop (g : KnowledgeGraph) (o : ExploreOptions) (maxN effDepth : Nat) :
    Nat → ExpSt → Option ExpSt
  | 0, _ => none
  | fuel + 1, st =>
    match st.queue with
    | [] => some st
    | (nodeId, level) :: rest =>
      if maxN ≤ st.resNodes.length then some st
      else if effDepth ≤ level then
        exploreLoop g o maxN effDepth fuel { st with queue := rest }
      else
        exploreLoop g o maxN effDepth fuel
          (processEdges g o maxN nodeId level (edgesFor g o nodeId)
            { st with queue := rest })

/-- `GraphExplorer.exploreGraph`.  The two external lookups are passed in:
`startNode` is `await nodeLookup.findNode(graphId, nodeQuery)` and
`graphOpt` is `await this.storage.getGraph(graphId)`. -/
def exploreGraph (graphOpt : Option KnowledgeGraph) (startNode : Option GraphNode)
    (o : ExploreOptions) : Except String ExplorationResult :=
  match startNode with
  | none => .ok ⟨[], [], none, 0, false, 0⟩
  | some root =>
    match graphOpt with
    | none => .error "Graph not found"
    | some g =>
      let effDepth := if o.depth = 0 then 2 else o.depth
      let maxN := if o.maxNodes = 0 then 100 else o.maxNodes
      match exploreLoop g o maxN effDepth (g.nodes.length + 2)
          ⟨[root.id], [(root.id, 0)], [root], [], false⟩ with
      | some st => .ok ⟨st.resNodes, st.resEdges, some root.id, effDepth,
          st.truncated, g.nodes.length⟩
      | none => .error "out of fuel"

/-! ## `DependencyAnalyzer.findCircularDependenciesInGraph` and
`calculateCycleSeverity` (graph-explorer.ts, second document) -/

structure CircularDependency where
  path : List GraphNode
  severity : String
  cycleLength : Nat
  involvedTypes : List String
  deriving DecidableEq, Repr

/-- `DependencyAnalyzer.calculateCycleSeverity`. -/
def calculateCycleSeverity (cyclePath : List GraphNode) : String :=
  if 4 < cyclePath.length then "high"
  else if 2 < (jsSetOf (cyclePath.map (fun n => n.type_))).length then "high"
  else if cyclePath.any (fun n =>
      n.type_ = "File" || n.type_ = "Class" || n.type_ = "Interface") then "medium"
  else "low"

/-- Outer mutable state of the cycle search: the `cycles` accumulator and the
`visitedPaths` dedup set of canonical cycle keys. -/
structure CycSt where
  cycles : List CircularDependency
  visitedPaths : List String
  deriving DecidableEq, Repr

/-- The recursive closure `dfs(nodeId, path, visited)` of
`findCircularDependenciesInGraph`.  `path`/`visited` are the per-branch
copies (`[...path]`, `new Set(visited)`); `st` threads the outer `cycles`
and `visitedPaths`.  The fuel is unreachable for the callers' value: each
recursive call strictly grows `visited` inside the node-id set of `g`. -/
def cycleDfs (g : KnowledgeGraph) (maxCycles : Nat) :
    Nat → String → List GraphNode → List String → CycSt → CycSt
  | 0, _, _, _, st => st
  | fuel + 1, nodeId, path, visited, st =>
    if maxCycles ≤ st.cycles.length then st
    else if visited.contains nodeId then
      match path.findIdx? (fun n => n.id = nodeId) with
      | none => st
      | some i =>
        let cyclePath := path.drop i
        let cycleKey := String.intercalate "->" (cyclePath.map (fun n => n.id))
        if st.visitedPaths.contains cycleKey then st
        else
          { cycles := st.cycles ++
              [{ path := cyclePath
                 severity := calculateCycleSeverity cyclePath
                 cycleLength := cyclePath.length
                 involvedTypes := jsSetOf (cyclePath.map (fun n => n.type_)) }]
            visitedPaths := st.visitedPaths ++ [cycleKey] }
    else
      match g.nodes.find? (fun n => n.id = nodeId) with
      | none => st
      | some node =>
        let visited' := nodeId :: visited
        let path' := path ++ [node]
        (g.edges.filter (fun e => e.from_ = nodeId)).foldl
          (fun st e => cycleDfs g maxCycles fuel e.to_ path' visited' st) st

/-- `DependencyAnalyzer.findCircularDependenciesInGraph`: DFS from every
node, stopping once `maxCycles` cycles are recorded. -/
def findCircularDependenciesInGraph (g : KnowledgeGraph) (maxCycles : Nat) :
    List CircularDependency :=
  (g.nodes.foldl
    (fun st node =>
      if maxCycles ≤ st.cycles.length then st
      else cycleDfs g maxCycles (g.nodes.length + 2) node.id [] [] st)
    ⟨[], []⟩).cycles

/-- Instrumentation for the path-length analysis of the cycle DFS: the same
recursion as `cycleDfs`, but computing the maximum `path` length ever
reached instead of the cycles (the `len` argument is `path.length`). -/
def cycleDfsPathLen (g : KnowledgeGraph) :
    Nat → String → Nat → List String → Nat
  | 0, _, len, _ => len
  | fuel + 1, nodeId, len, visited =>
    if visited.contains nodeId then len
    else
      match g.nodes.find? (fun n => n.id = nodeId) with
      | none => len
      | some _ =>
        let len' := len + 1
        (g.edges.filter (fun e => e.from_ = nodeId)).foldl
          (fun m e => max m (cycleDfsPathLen g fuel e.to_ len' (nodeId :: visited)))
          len'

/-- Longest DFS path explored by `findCircularDependenciesInGraph` over all
of its roots. -/
def maxExploredPathLen (g : KnowledgeGraph) : Nat :=
  g.nodes.foldl
    (fun m n => max m (cycleDfsPathLen g (g.nodes.length + 2) n.id 0 [])) 0

/-- A straight-line acyclic call chain `f0 -> f1 -> ... -> f(n-1)` used to
probe the DFS path length on cycle-free graphs. -/
def chainGraph (n : Nat) : KnowledgeGraph :=
  { nodes := (List.range n).map (fun i =>
      { id := toString i, type_ := "Function", name := "f" ++ toString i })
    edges := (List.range (n - 1)).map (fun i =>
      { from_ := toString i, to_ := toString (i + 1), type_ := "CALLS" }) }

/-! ## `GraphExplorer.findPath` (graph-explorer.ts, first document) -/

/-- A queue entry of the `findPath` BFS: node id, the id path from the source
(inclusive), and the edge path. -/
structure PEntry where
  nodeId : String
  path : List String
  edgePath : List GraphEdge
  deriving DecidableEq, Repr

/-- The outgoing edges `findPath` follows from one node: `edges.filter(e =>
e.from === nodeId)`, then the `relationTypes` filter when non-empty. -/
def qualEdges (g : KnowledgeGraph) (rel : List String) (nodeId : String) :
    List GraphEdge :=
  let outs := g.edges.filter (fun e => e.from_ = nodeId)
  if rel = [] then outs else outs.filter (fun e => rel.contains e.type_)

/-- The `for (const edge of filteredEdges)` body of `findPath`: enqueue each
unvisited target (marking it visited at enqueue time).  Returns the new
entries in edge order together with the grown visited set. -/
def enqueueNew (ent : PEntry) : List GraphEdge → List String →
    List PEntry × List String
  | [], visited => ([], visited)
  | e :: es, visited =>
    if visited.contains e.to_ then enqueueNew ent es visited
    else
      let res := enqueueNew ent es (e.to_ :: visited)
      (⟨e.to_, ent.path ++ [e.to_], ent.edgePath ++ [e]⟩ :: res.1, res.2)

/-- The `while (queue.length > 0)` loop of `findPath`.  The outer `none` is
the out-of-fuel marker; `some none` is "no path found"; `some (some _)` the
found id path and edge path. -/
def findPathLoop (g : KnowledgeGraph) (rel : List String) (toId : String)
    (maxDepth : Nat) :
    Nat → List PEntry → List String → Option (Option (List String × List GraphEdge))
  | 0, _, _ => none
  | _ + 1, [], _ => some none
  | fuel + 1, ent :: rest, visited =>
    if ent.nodeId = toId then some (some (ent.path, ent.edgePath))
    else if maxDepth < ent.path.length then
      findPathLoop g rel toId maxDepth fuel rest visited
    else
      let next := enqueueNew ent (qualEdges g rel ent.nodeId) visited
      findPathLoop g rel toId maxDepth fuel (rest ++ next.1) next.2

structure FindPathResult where
  path : List (Option GraphNode)
  edges : List GraphEdge
  length : Nat
  found : Bool
  deriving DecidableEq, Repr

/-- `GraphExplorer.findPath`.  `fromRes`/`toRes` are the two
`nodeLookup.findNode` results, `graphOpt` the `storage.getGraph` result.
`maxDepth = 0` models the JS falsy default `options.maxDepth || 10`.
The id-to-node conversion `path.map(id => graph.nodes.find(...)!)` is kept
as an `Option`-valued map (the non-null assertion is unchecked in TS). -/
def findPath (graphOpt : Option KnowledgeGraph)
    (fromRes toRes : Option GraphNode) (rel : List String) (maxDepth : Nat) :
    Except String FindPathResult :=
  match fromRes, toRes with
  | some f, some t =>
    match graphOpt with
    | none => .error "Graph not found"
    | some g =>
      let md := if maxDepth = 0 then 10 else maxDepth
      match findPathLoop g rel t.id md (g.edges.length + 2)
          [⟨f.id, [f.id], []⟩] [f.id] with
      | some (some (ids, es)) =>
        .ok ⟨ids.map (fun i => g.nodes.find? (fun n => n.id = i)), es,
          ids.length - 1, true⟩
      | some none => .ok ⟨[], [], 0, false⟩
      | none => .error "out of fuel"
  | _, _ => .ok ⟨[], [], 0, false⟩

/-! ## `DependencyAnalyzer.findDependencies` and
`GraphExplorer.getNodeDetails` -/

/-- One incoming/outgoing dependency entry of `findDependencies`. -/
structure DepEntry where
  id : String
  name : String
  type_ : String
  relationship : String
  distance : Nat
  deriving DecidableEq, Repr

structure DepsResult where
  nodeInfo : Option GraphNode
  incoming : List DepEntry
  outgoing : List DepEntry
  directDependencies : Nat
  transitiveDependencies : Nat
  deriving DecidableEq, Repr

/-- `edge.from.split(/[_\/\\]/).pop() || 'Unknown'`. -/
def fallbackName (s : String) : String :=
  let parts := s.split (fun c => c = '_' || c = '/' || c = '\\')
  match parts.getLast? with
  | some last => if last = "" then "Unknown" else last
  | none => "Unknown"

/-- `DependencyAnalyzer.findDependencies`; `nodeRes` is the
`nodeLookup.findNode` result. -/
def findDependencies (graphOpt : Option KnowledgeGraph)
    (nodeRes : Option GraphNode) (direction : Direction) :
    Except String DepsResult :=
  match nodeRes with
  | none => .ok ⟨none, [], [], 0, 0⟩
  | some node =>
    match graphOpt with
    | none => .error "Graph not found"
    | some g =>
      let rid := node.id
      let incomingEdges :=
        if direction = .both ∨ direction = .incoming then
          g.edges.filter (fun e => e.to_ = rid) else []
      let outgoingEdges :=
        if direction = .both ∨ direction = .outgoing then
          g.edges.filter (fun e => e.from_ = rid) else []
      let incoming := incomingEdges.map (fun e =>
        match byIdGet g e.from_ with
        | some src => DepEntry.mk e.from_ src.name src.type_ e.type_ 1
        | none => DepEntry.mk e.from_ (fallbackName e.from_) "Unknown" e.type_ 1)
      let outgoing := outgoingEdges.map (fun e =>
        match byIdGet g e.to_ with
        | some tgt => DepEntry.mk e.to_ tgt.name tgt.type_ e.type_ 1
        | none => DepEntry.mk e.to_ (fallbackName e.to_) "Unknown" e.type_ 1)
      .ok ⟨some node, incoming, outgoing, incoming.length + outgoing.length, 0⟩

structure NodeDetails where
  node : Option GraphNode
  incomingEdges : List (GraphEdge × GraphNode)
  outgoingEdges : List (GraphEdge × GraphNode)
  siblings : List GraphNode
  file : Option (String × List GraphNode)
  deriving DecidableEq, Repr

/-- `GraphExplorer.getNodeDetails`; `nodeRes` is the `nodeLookup.findNode`
result.  The `fromNode/toNode` fallback objects use type `"File"` as in the
source. -/
def getNodeDetails (graphOpt : Option KnowledgeGraph)
    (nodeRes : Option GraphNode) : Except String NodeDetails :=
  match nodeRes with
  | none => .ok ⟨none, [], [], [], none⟩
  | some node =>
    match graphOpt with
    | none => .error "Graph not found"
    | some g =>
      let incomingEdges := (g.edges.filter (fun e => e.to_ = node.id)).map
        (fun e =>
          match g.nodes.find? (fun n => n.id = e.from_) with
          | some fromNode => (e, fromNode)
          | none => (e, GraphNode.mk e.from_ "File" (fallbackName e.from_) "" none))
      let outgoingEdges := (g.edges.filter (fun e => e.from_ = node.id)).map
        (fun e =>
          match g.nodes.find? (fun n => n.id = e.to_) with
          | some toNode => (e, toNode)
          | none => (e, GraphNode.mk e.to_ "File" (fallbackName e.to_) "" none))
      let siblings :=
        if node.file ≠ "" then
          g.nodes.filter (fun n =>
            n.file = node.file && n.type_ = node.type_ && n.id ≠ node.id)
        else []
      let file :=
        if node.file ≠ "" then
          some (node.file, g.nodes.filter (fun n => n.file = node.file))
        else none
      .ok ⟨some node, incomingEdges, outgoingEdges, siblings, file⟩

/-! ## `NodeIndex` (node-index.ts, first document)

`normalizeId` computes `node_${++this.nodeCounter}_${hash}` where `hash` is
the first 8 hex chars of the SHA-256 of the original id.  SHA-256 lives in
the external `crypto` module; it is modelled as an arbitrary function
parameter `hash : String → String` — no collision-freedom is ever assumed
(uniqueness of canonical ids must come from the counter alone). -/

def mapGetD {β : Type} (l : List (String × β)) (k : String) (d : β) : β :=
  (mapGet l k).getD d

/-- JS `String.prototype.toLowerCase`, modelled structurally: lower-case
every character in place. -/
def strToLower (s : String) : String :=
  ⟨s.data.map Char.toLower⟩

/-- Every 3-character substring of `s`, in scan order (`text.slice(i, i+3)`
for `0 ≤ i ≤ text.length - 3`); empty when `s` is shorter than 3. -/
def trigramsOf (s : String) : List String :=
  if s.length < 3 then []
  else (List.range (s.length - 2)).map (fun i => ((s.data.drop i).take 3).asString)

/-- The in-memory index of `NodeIndex` (the JS `Map`s as association lists,
the `Set`s as lists). -/
structure NodeIndex where
  nodes : List (String × GraphNode) := []
  nameIndex : List (String × List String) := []
  fileIndex : List (String × List String) := []
  typeIndex : List (String × List String) := []
  originalIdIndex : List (String × String) := []
  reverseIdIndex : List (String × String) := []
  nameTrigrams : List (String × List String) := []
  nodeCounter : Nat := 0
  deriving DecidableEq, Repr

/-- `NodeIndex.normalizeId`, given the current counter value: the returned
canonical id embeds the incremented counter and the 8-char hash prefix. -/
def normalizeId (hash : String → String) (counter : Nat) (originalId : String) :
    String :=
  "node_" ++ Nat.repr (counter + 1) ++ "_" ++ (hash originalId).take 8

/-- The indexed copy of a node: canonical id, original id preserved in
metadata (`{ ...node.metadata, originalId: node.id }`). -/
def withCanonicalId (n : GraphNode) (nid : String) : GraphNode :=
  { n with
    id := nid
    metadata := some { (n.metadata.getD {}) with originalId := some n.id } }

/-- `NodeIndex.addTrigrams`: register `nodeId` under every trigram of
`text` (callers pass the lowercased name). -/
def addTrigrams (m : List (String × List String)) (text nodeId : String) :
    List (String × List String) :=
  (trigramsOf text).foldl
    (fun m t => mapSet m t (setAdd (mapGetD m t []) nodeId)) m

/-- One iteration of the `for (const node of graph.nodes)` loop of
`NodeIndex.buildIndexes`. -/
def buildStep (hash : String → String) (st : NodeIndex) (node : GraphNode) :
    NodeIndex :=
  let nid := normalizeId hash st.nodeCounter node.id
  let indexed := withCanonicalId node nid
  let nameKey := strToLower node.name
  { nodes := mapSet st.nodes nid indexed
    nameIndex := mapSet st.nameIndex nameKey
      (setAdd (mapGetD st.nameIndex nameKey []) nid)
    fileIndex :=
      if node.file ≠ "" then
        let fileKey := strToLower (node.file.replace "\\" "/")
        mapSet st.fileIndex fileKey (setAdd (mapGetD st.fileIndex fileKey []) nid)
      else st.fileIndex
    typeIndex := mapSet st.typeIndex node.type_
      (setAdd (mapGetD st.typeIndex node.type_ []) nid)
    originalIdIndex := mapSet (mapSet st.originalIdIndex node.id nid) node.name nid
    reverseIdIndex := mapSet st.reverseIdIndex nid node.id
    nameTrigrams := addTrigrams st.nameTrigrams (strToLower node.name) nid
    nodeCounter := st.nodeCounter + 1 }

/-- `NodeIndex.buildIndexes` over a whole graph (the constructor's work). -/
def buildIndexes (hash : String → String) (g : KnowledgeGraph) : NodeIndex :=
  g.nodes.foldl (buildStep hash) {}

/-- `NodeIndex.getNode`: canonical id first, then the original-id (and name)
bidirectional map. -/
def NodeIndex.getNode (idx : NodeIndex) (nodeId : String) : Option GraphNode :=
  match mapGet idx.nodes nodeId with
  | some n => some n
  | none =>
    match mapGet idx.originalIdIndex nodeId with
    | some nid => mapGet idx.nodes nid
    | none => none

/-- A `SearchResult` of node-index.ts; `reason` is one of the literal tags
of the source ("fuzzy" for the trigram tier). -/
structure SearchResult where
  node : GraphNode
  score : ℚ
  reason : String
  deriving DecidableEq, Repr

/-- `!nodeType || node.type === nodeType`. -/
def matchesType (n : GraphNode) (nodeType : Option String) : Bool :=
  match nodeType with
  | none => true
  | some ty => n.type_ = ty

/- `NodeIndex.fuzzySearch`: trigram overlap scoring.  The float arithmetic
(`size * 0.3`, `matches / size * 0.6`) is modelled in `ℚ`. -/

/-- The body of `for (const trigram of queryTrigrams)` in `fuzzySearch`:
for one query trigram, bump the per-candidate match count of every node id
in that trigram's bucket (`candidateScores.set(nodeId, (get || 0) + 1)`). -/
def csStep (idx : NodeIndex) (m : List (String × Nat)) (t : String) :
    List (String × Nat) :=
  (mapGetD idx.nameTrigrams t []).foldl
    (fun m nid => mapSet m nid (mapGetD m nid 0 + 1)) m

/-- The `candidateScores` map of `fuzzySearch` after the whole trigram
loop. -/
def candidateScoresOf (idx : NodeIndex) (qts : List String) :
    List (String × Nat) :=
  qts.foldl (csStep idx) []

/-- The body of the results loop of `fuzzySearch` for one candidate entry
`(nodeId, trigramMatches)`: `none` when the candidate is filtered out
(below `minScore`, unknown node id, or type mismatch), otherwise the
pushed `SearchResult` with score `trigramMatches / queryTrigrams.size *
0.6` and reason `"fuzzy"`. -/
def tierResult (idx : NodeIndex) (nodeType : Option String)
    (minScore qn : ℚ) (p : String × Nat) : Option SearchResult :=
  if minScore ≤ (p.2 : ℚ) then
    match mapGet idx.nodes p.1 with
    | some node =>
      if matchesType node nodeType then
        some ⟨node, (p.2 : ℚ) / qn * (6 / 10), "fuzzy"⟩
      else none
    | none => none
  else none

/-- `results.push(...)` guarded by the candidate filter: append the tier
result when the candidate survives, keep `results` unchanged otherwise. -/
def tierFoldStep (idx : NodeIndex) (nodeType : Option String) (ms qn : ℚ)
    (acc : List SearchResult) (p : String × Nat) : List SearchResult :=
  match tierResult idx nodeType ms qn p with
  | some res => acc ++ [res]
  | none => acc

def fuzzySearch (idx : NodeIndex) (query : String) (nodeType : Option String) :
    List SearchResult :=
  if query.length < 3 then []
  else
    let queryLower := strToLower query
    let queryTrigrams := jsSetOf (trigramsOf queryLower)
    let minScore : ℚ := max 1 ((queryTrigrams.length : ℚ) * (3 / 10))
    let results := (candidateScoresOf idx queryTrigrams).foldl
      (tierFoldStep idx nodeType minScore (queryTrigrams.length : ℚ))
      ([] : List SearchResult)
    results.mergeSort (fun a b => b.score ≤ a.score)

/-! ## Spec-side reachability

These definitions are the independent referent for the claims that compare
the BFS traversals with graph-theoretic reachability.  `levels f root k` is
the set (as a deduplicated list) of vertices reachable from `root` in at
most `k` steps of the image function `f`. -/

/-- Vertices reachable from `root` within `k` steps of `f`. -/
def levels (f : String → List String) (root : String) : Nat → List String
  | 0 => [root]
  | k + 1 =>
    let prev := levels f root k
    (prev ++ prev.flatMap f).dedup

/-- The connected-node ids an edge list contributes at `nodeId`, after the
node-exists and type-exclusion filters (the per-edge processing of
`exploreGraph`). -/
def connOf (g : KnowledgeGraph) (o : ExploreOptions) (nodeId : String)
    (es : List GraphEdge) : List String :=
  (es.map (fun e => if e.from_ = nodeId then e.to_ else e.from_)).filter
    (fun w =>
      match byIdGet g w with
      | some n => !o.excludeTypes.contains n.type_
      | none => false)

/-- One step of `exploreGraph`'s traversal, as an image function: the
neighbor across each direction/relation-qualifying edge, kept only when a
node with that id exists in the graph and its type is not excluded.
Modelled from the spec: "the number of nodes reachable from the root within
depth levels (after direction/relation/exclusion filtering)". -/
def exploreImage (g : KnowledgeGraph) (o : ExploreOptions) (a : String) :
    List String :=
  connOf g o a (edgesFor g o a)

/-- Modelled from the spec: the nodes reachable from `rootId` within
`depth` levels under `exploreGraph`'s filters. -/
def specReachable (g : KnowledgeGraph) (o : ExploreOptions) (rootId : String)
    (depth : Nat) : List String :=
  levels (exploreImage g o) rootId depth

/-- One step of `findPath`'s traversal: the target of each qualifying
outgoing edge. -/
def pathImage (g : KnowledgeGraph) (rel : List String) (a : String) :
    List String :=
  (qualEdges g rel a).map (fun e => e.to_)

/-- Modelled from the spec: a directed path from `a` to `b` along edges
that `findPath` may traverse (outgoing direction, `relationTypes` filter);
the edge list is the path, so its length is the hop count. -/
inductive QPath (g : KnowledgeGraph) (rel : List String) :
    String → String → List GraphEdge → Prop
  | refl (a : String) : QPath g rel a a []
  | cons {a b : String} {es : List GraphEdge} (e : GraphEdge)
      (hmem : e ∈ g.edges) (hfrom : e.from_ = a)
      (hrel : rel = [] ∨ e.type_ ∈ rel) (hp : QPath g rel e.to_ b es) :
      QPath g rel a b (e :: es)

/-- The id list along an edge path, starting at `start` (what `findPath`
stores in the `path` field of a queue entry). -/
def pathIds (start : String) (es : List GraphEdge) : List String :=
  start :: es.map (fun e => e.to_)

/-- A well-formed queue entry of the `findPath` BFS at level `l` (edge
count): the stored path is a qualifying path of exactly `l` edges whose
endpoint is at BFS distance exactly `l` (not reachable in fewer steps). -/
def entOk (g : KnowledgeGraph) (rel : List String) (fromId : String) (l : Nat)
    (ent : PEntry) : Prop :=
  QPath g rel fromId ent.nodeId ent.edgePath ∧
  ent.path = pathIds fromId ent.edgePath ∧
  ent.edgePath.length = l ∧
  ent.nodeId ∈ levels (pathImage g rel) fromId l ∧
  ∀ k < l, ent.nodeId ∉ levels (pathImage g rel) fromId k

/-- Invariant of the `findPath` BFS loop.  The queue splits as `F ++ P`,
`F` holding the unprocessed frontier at level `l` and `P` the entries
discovered at level `l + 1`; `visited` is exactly everything within level
`l` plus the `P` discoveries; undiscovered level-`(l+1)` vertices are
reachable from a pending `F` entry; a visited target is still enqueued. -/
structure FPInv (g : KnowledgeGraph) (rel : List String) (toId : String)
    (md : Nat) (fromId : String) (l : Nat) (F P : List PEntry)
    (visited : List String) : Prop where
  hF : ∀ ent ∈ F, entOk g rel fromId l ent
  hP : ∀ ent ∈ P, entOk g rel fromId (l + 1) ent
  hl : l ≤ md
  hPmd : l = md → P = []
  hvisL : ∀ z ∈ levels (pathImage g rel) fromId l, z ∈ visited
  hvis : ∀ z ∈ visited,
    z ∈ levels (pathImage g rel) fromId l ∨ ∃ ent ∈ P, ent.nodeId = z
  hfr : l < md → ∀ u ∈ levels (pathImage g rel) fromId (l + 1),
    u ∈ visited ∨ ∃ ent ∈ F, u ∈ pathImage g rel ent.nodeId
  htq : toId ∈ visited → ∃ ent ∈ F ++ P, ent.nodeId = toId

/-- Invariant of the `exploreGraph` BFS loop (same frontier decomposition
as `FPInv`, over plain node ids): the queue splits into the pending
level-`l` frontier `F` and the level-`(l+1)` discoveries `P`; `explored`
is everything within level `l` plus `P`; every undiscovered level-`(l+1)`
vertex is an image of a pending `F` vertex; `resNodes` mirrors `explored`
in discovery order. -/
structure ExpInv (g : KnowledgeGraph) (o : ExploreOptions)
    (effDepth : Nat) (rootId : String) (l : Nat) (F P : List String)
    (st : ExpSt) : Prop where
  hqueue : st.queue = F.map (fun z => (z, l)) ++ P.map (fun z => (z, l + 1))
  hF : ∀ z ∈ F, z ∈ levels (exploreImage g o) rootId l
  hP : ∀ z ∈ P, z ∈ levels (exploreImage g o) rootId (l + 1)
  hl : l ≤ effDepth
  hPmd : l = effDepth → P = []
  hvisL : ∀ z ∈ levels (exploreImage g o) rootId l, z ∈ st.explored
  hvis : ∀ z ∈ st.explored, z ∈ levels (exploreImage g o) rootId l ∨ z ∈ P
  hfr : l < effDepth → ∀ u ∈ levels (exploreImage g o) rootId (l + 1),
    u ∈ st.explored ∨ ∃ y ∈ F, u ∈ exploreImage g o y
  hnodup : st.explored.Nodup
  hcorr : st.resNodes.map (fun n => n.id) = st.explored.reverse

/-! ## Concrete fixtures used by the counterexamples and witnesses -/

def nA : GraphNode := { id := "a", type_ := "Function", name := "A" }

def nB : GraphNode := { id := "b", type_ := "Function", name := "B" }

def eAB : GraphEdge := { from_ := "a", to_ := "b", type_ := "CALLS" }

/-- Two functions, one call edge `a -> b`. -/
def gAB : KnowledgeGraph := { nodes := [nA, nB], edges := [eAB] }

def triA : GraphNode := { id := "a", type_ := "Function", name := "A" }

def triB : GraphNode := { id := "b", type_ := "Function", name := "B" }

def triC : GraphNode := { id := "c", type_ := "Function", name := "C" }

/-- The spec's synthetic 3-cycle: Function nodes A, B, C with CALLS edges
`A -> B -> C -> A`. -/
def gTri : KnowledgeGraph :=
  { nodes := [triA, triB, triC]
    edges := [⟨"a", "b", "CALLS"⟩, ⟨"b", "c", "CALLS"⟩, ⟨"c", "a", "CALLS"⟩] }

/-- A node whose original id `"x"` collides with the *name* of a later
node. -/
def c7A : GraphNode := { id := "x", type_ := "Function", name := "a" }

def c7B : GraphNode := { id := "b", type_ := "Function", name := "x" }

def gC7 : KnowledgeGraph := { nodes := [c7A, c7B], edges := [] }

/-- A constant stand-in for the SHA-256 hex prefix: also exercises the case
of two nodes sharing the same 8-hex-digit hash prefix. -/
def hashH : String → String := fun _ => "h"

def idxC7 : NodeIndex := buildIndexes hashH gC7

def fooNode : GraphNode := { id := "nfoo", type_ := "Function", name := "foo" }

def gFoo : KnowledgeGraph := { nodes := [fooNode], edges := [] }

def idxFoo : NodeIndex := buildIndexes hashH gFoo

/-! ## Theorems: basic map and lookup lemmas -/

theorem mapGet_mapSet_self {β : Type} (l : List (String × β)) (k : String) (v : β) :
    mapGet (mapSet l k v) k = some v := by
  induction l with
  | nil => simp [mapSet, mapGet]
  | cons p rest ih =>
    by_cases h : p.1 = k <;> simp [mapSet, mapGet, h, ih]

theorem mapGet_mapSet_ne {β : Type} (l : List (String × β)) (k k' : String) (v : β)
    (h : k' ≠ k) : mapGet (mapSet l k v) k' = mapGet l k' := by
  induction l with
  | nil => simp [mapSet, mapGet, Ne.symm h]
  | cons p rest ih =>
    obtain ⟨k0, v0⟩ := p
    simp only [mapSet]
    by_cases hp : k0 = k
    · subst hp
      simp only [if_pos rfl, mapGet]
      have hne : ¬ k0 = k' := fun hh => h (hh.symm)
      rw [if_neg hne, if_neg hne]
    · simp only [if_neg hp, mapGet]
      rw [ih]

theorem foldl_lastMatch_mem {nodeId : String} :
    ∀ (l : List GraphNode) (acc : Option GraphNode) (n : GraphNode),
      l.foldl (fun acc n => if n.id = nodeId then some n else acc) acc = some n →
      (n ∈ l ∧ n.id = nodeId) ∨ acc = some n := by
  intro l
  induction l with
  | nil => intro acc n h; exact Or.inr h
  | cons x xs ih =>
    intro acc n h
    simp only [List.foldl_cons] at h
    rcases ih _ n h with hl | hacc
    · exact Or.inl ⟨List.mem_cons_of_mem _ hl.1, hl.2⟩
    · by_cases hx : x.id = nodeId
      · rw [if_pos hx] at hacc
        cases hacc
        exact Or.inl ⟨List.mem_cons_self _ _, hx⟩
      · rw [if_neg hx] at hacc
        exact Or.inr hacc

theorem byIdGet_mem {g : KnowledgeGraph} {nodeId : String} {n : GraphNode}
    (h : byIdGet g nodeId = some n) : n ∈ g.nodes ∧ n.id = nodeId := by
  rcases foldl_lastMatch_mem g.nodes none n h with hl | hacc
  · exact hl
  · exact absurd hacc (by simp)

/-! ## Theorems: the level sets `levels f root k` -/

theorem mem_levels_zero {f : String → List String} {root z : String} :
    z ∈ levels f root 0 ↔ z = root := by
  simp [levels]

theorem mem_levels_succ {f : String → List String} {root z : String} {k : Nat} :
    z ∈ levels f root (k + 1) ↔
      z ∈ levels f root k ∨ ∃ y ∈ levels f root k, z ∈ f y := by
  simp [levels, List.mem_dedup, List.mem_append, List.mem_flatMap]

theorem levels_nodup (f : String → List String) (root : String) :
    ∀ k, (levels f root k).Nodup
  | 0 => by simp [levels]
  | _ + 1 => by simp [levels, List.nodup_dedup]

theorem levels_mono {f : String → List String} {root z : String} {k : Nat}
    (h : z ∈ levels f root k) : z ∈ levels f root (k + 1) :=
  mem_levels_succ.mpr (Or.inl h)

theorem levels_mono_le {f : String → List String} {root z : String} {k m : Nat}
    (hkm : k ≤ m) (h : z ∈ levels f root k) : z ∈ levels f root m := by
  induction m with
  | zero => simpa [Nat.le_zero.mp hkm] using h
  | succ m ih =>
    rcases Nat.lt_or_ge k (m + 1) with hlt | hge
    · exact levels_mono (ih (Nat.lt_succ_iff.mp hlt))
    · simpa [Nat.le_antisymm hkm hge] using h

theorem root_mem_levels (f : String → List String) (root : String) (k : Nat) :
    root ∈ levels f root k :=
  levels_mono_le (Nat.zero_le k) (by simp [levels])

/-- Once a level is saturated, all later levels coincide with it. -/
theorem levels_saturated {f : String → List String} {root : String} {k : Nat}
    (hsat : ∀ z, z ∈ levels f root (k + 1) → z ∈ levels f root k) :
    ∀ m z, z ∈ levels f root (k + m) → z ∈ levels f root k := by
  intro m
  induction m with
  | zero => intro z h; exact h
  | succ m ih =>
    intro z h
    rw [show k + (m + 1) = (k + m) + 1 by omega] at h
    rcases mem_levels_succ.mp h with h' | ⟨y, hy, hzy⟩
    · exact ih z h'
    · exact hsat z (mem_levels_succ.mpr (Or.inr ⟨y, ih y hy, hzy⟩))

/-! ## Theorems: `QPath` vs the level sets of `pathImage` -/

theorem mem_qualEdges {g : KnowledgeGraph} {rel : List String} {a : String}
    {e : GraphEdge} :
    e ∈ qualEdges g rel a ↔
      e ∈ g.edges ∧ e.from_ = a ∧ (rel = [] ∨ e.type_ ∈ rel) := by
  unfold qualEdges
  by_cases hrel : rel = []
  · simp [hrel, List.mem_filter]
  · simp only [if_neg hrel, List.mem_filter, decide_eq_true_eq]
    constructor
    · rintro ⟨⟨he, hf⟩, ht⟩
      exact ⟨he, by simpa using hf, Or.inr (by simpa using ht)⟩
    · rintro ⟨he, hf, ht⟩
      refine ⟨⟨he, by simpa using hf⟩, ?_⟩
      rcases ht with h | h
      · exact absurd h hrel
      · simpa using h

theorem mem_pathImage {g : KnowledgeGraph} {rel : List String} {a z : String} :
    z ∈ pathImage g rel a ↔
      ∃ e ∈ g.edges, e.from_ = a ∧ (rel = [] ∨ e.type_ ∈ rel) ∧ e.to_ = z := by
  unfold pathImage
  simp only [List.mem_map]
  constructor
  · rintro ⟨e, he, rfl⟩
    rcases mem_qualEdges.mp he with ⟨h1, h2, h3⟩
    exact ⟨e, h1, h2, h3, rfl⟩
  · rintro ⟨e, h1, h2, h3, rfl⟩
    exact ⟨e, mem_qualEdges.mpr ⟨h1, h2, h3⟩, rfl⟩

/-- Extending reachability by one step at the source. -/
theorem levels_cons_front {f : String → List String} {a y z : String}
    (hy : y ∈ f a) : ∀ {n : Nat}, z ∈ levels f y n → z ∈ levels f a (n + 1) := by
  intro n
  induction n generalizing z with
  | zero =>
    intro h
    rw [mem_levels_zero] at h
    subst h
    exact mem_levels_succ.mpr (Or.inr ⟨a, by simp [levels], hy⟩)
  | succ n ih =>
    intro h
    rcases mem_levels_succ.mp h with h' | ⟨w, hw, hzw⟩
    · exact levels_mono (ih h')
    · exact mem_levels_succ.mpr (Or.inr ⟨w, ih hw, hzw⟩)

/-- Concatenation of qualifying paths. -/
theorem QPath.trans {g : KnowledgeGraph} {rel : List String} {a b c : String}
    {es₁ es₂ : List GraphEdge} (h₁ : QPath g rel a b es₁)
    (h₂ : QPath g rel b c es₂) : QPath g rel a c (es₁ ++ es₂) := by
  induction h₁ with
  | refl a => simpa using h₂
  | cons e hmem hfrom hrel hp ih =>
    exact QPath.cons e hmem hfrom hrel (ih h₂)

/-- Appending one qualifying edge at the end of a qualifying path. -/
theorem QPath.snoc {g : KnowledgeGraph} {rel : List String} {a y : String}
    {es : List GraphEdge} (h : QPath g rel a y es) (e : GraphEdge)
    (hmem : e ∈ g.edges) (hfrom : e.from_ = y) (hrel : rel = [] ∨ e.type_ ∈ rel) :
    QPath g rel a e.to_ (es ++ [e]) :=
  h.trans (QPath.cons e hmem hfrom hrel (QPath.refl e.to_))

/-- Soundness: a qualifying path of length `n` puts its endpoint within
level `n`. -/
theorem QPath.mem_levels {g : KnowledgeGraph} {rel : List String}
    {a b : String} {es : List GraphEdge} (h : QPath g rel a b es) :
    b ∈ levels (pathImage g rel) a es.length := by
  induction h with
  | refl a => simp [levels]
  | cons e hmem hfrom hrel hp ih =>
    have hy : e.to_ ∈ pathImage g rel _ :=
      mem_pathImage.mpr ⟨e, hmem, hfrom, hrel, rfl⟩
    simpa using levels_cons_front hy ih

/-- Completeness: membership in level `k` yields a qualifying path of
length at most `k`. -/
theorem exists_qpath_of_mem_levels {g : KnowledgeGraph} {rel : List String}
    {a z : String} :
    ∀ {k : Nat}, z ∈ levels (pathImage g rel) a k →
      ∃ es, QPath g rel a z es ∧ es.length ≤ k := by
  intro k
  induction k generalizing z with
  | zero =>
    intro h
    rw [mem_levels_zero] at h
    subst h
    exact ⟨[], QPath.refl _, by simp⟩
  | succ k ih =>
    intro h
    rcases mem_levels_succ.mp h with h' | ⟨y, hy, hzy⟩
    · rcases ih h' with ⟨es, hp, hlen⟩
      exact ⟨es, hp, Nat.le_succ_of_le hlen⟩
    · rcases ih hy with ⟨es, hp, hlen⟩
      rcases mem_pathImage.mp hzy with ⟨e, hmem, hfrom, hrel, hto⟩
      refine ⟨es ++ [e], ?_, by simpa using Nat.succ_le_succ hlen⟩
      have := hp.snoc e hmem hfrom hrel
      rwa [hto] at this

/-! ## Theorems: the `findPath` BFS loop -/

theorem enqueueNew_spec (ent : PEntry) :
    ∀ (es : List GraphEdge) (visited : List String),
      (enqueueNew ent es visited).2 =
          ((enqueueNew ent es visited).1.map (fun x => x.nodeId)).reverse ++ visited ∧
      (∀ ent' ∈ (enqueueNew ent es visited).1,
        ∃ e ∈ es, ent' = ⟨e.to_, ent.path ++ [e.to_], ent.edgePath ++ [e]⟩) ∧
      (∀ e ∈ es, e.to_ ∈ (enqueueNew ent es visited).2) ∧
      ((enqueueNew ent es visited).1.map (fun x => x.nodeId)).Nodup ∧
      (∀ z ∈ (enqueueNew ent es visited).1.map (fun x => x.nodeId), z ∉ visited) := by
  intro es
  induction es with
  | nil =>
    intro visited
    simp [enqueueNew]
  | cons e es ih =>
    intro visited
    by_cases hv : visited.contains e.to_
    · have hmem : e.to_ ∈ visited := by simpa using hv
      have heq : enqueueNew ent (e :: es) visited = enqueueNew ent es visited := by
        simp only [enqueueNew]
        rw [if_pos hv]
      rw [heq]
      obtain ⟨i1, i2, i3, i4, i5⟩ := ih visited
      refine ⟨i1, ?_, ?_, i4, i5⟩
      · intro ent' h'
        obtain ⟨e', he', hsh⟩ := i2 ent' h'
        exact ⟨e', List.mem_cons_of_mem _ he', hsh⟩
      · intro e' he'
        rcases List.mem_cons.mp he' with rfl | he'
        · rw [i1]; exact List.mem_append_right _ hmem
        · exact i3 e' he'
    · have hmem : e.to_ ∉ visited := by simpa using hv
      have heq : enqueueNew ent (e :: es) visited =
          (⟨e.to_, ent.path ++ [e.to_], ent.edgePath ++ [e]⟩ ::
              (enqueueNew ent es (e.to_ :: visited)).1,
            (enqueueNew ent es (e.to_ :: visited)).2) := by
        simp only [enqueueNew]
        rw [if_neg hv]
      rw [heq]
      obtain ⟨i1, i2, i3, i4, i5⟩ := ih (e.to_ :: visited)
      refine ⟨?_, ?_, ?_, ?_, ?_⟩
      · simp only [List.map_cons, List.reverse_cons, List.append_assoc]
        simpa using i1
      · intro ent' h'
        rcases List.mem_cons.mp h' with rfl | h'
        · exact ⟨e, List.mem_cons_self _ _, rfl⟩
        · obtain ⟨e', he', hsh⟩ := i2 ent' h'
          exact ⟨e', List.mem_cons_of_mem _ he', hsh⟩
      · intro e' he'
        rcases List.mem_cons.mp he' with rfl | he'
        · rw [i1]
          exact List.mem_append_right _ (List.mem_cons_self _ _)
        · exact i3 e' he'
      · simp only [List.map_cons, List.nodup_cons]
        refine ⟨fun hin => ?_, i4⟩
        exact (i5 _ hin) (List.mem_cons_self _ _)
      · intro z hz
        rcases List.mem_cons.mp (by simpa using hz : z ∈ e.to_ ::
            (enqueueNew ent es (e.to_ :: visited)).1.map (fun x => x.nodeId)) with
          rfl | hz'
        · exact hmem
        · exact fun hzv => (i5 z hz') (List.mem_cons_of_mem _ hzv)

/-- Re-basing the loop invariant once the level-`l` frontier is exhausted. -/
theorem FPInv.shiftFP {g : KnowledgeGraph} {rel : List String} {toId : String}
    {md : Nat} {fromId : String} {l : Nat} {P : List PEntry}
    {visited : List String}
    (h : FPInv g rel toId md fromId l [] P visited) (hlt : l < md) :
    FPInv g rel toId md fromId (l + 1) P [] visited := by
  refine ⟨h.hP, by simp, hlt, fun _ => rfl, ?_, ?_, ?_, ?_⟩
  · intro z hz
    rcases h.hfr hlt z hz with hv | ⟨ent, hent, _⟩
    · exact hv
    · exact absurd hent (List.not_mem_nil ent)
  · intro z hz
    rcases h.hvis z hz with hL | ⟨ent, hent, hid⟩
    · exact Or.inl (levels_mono hL)
    · obtain ⟨_, _, _, hmemL, _⟩ := h.hP ent hent
      exact Or.inl (hid ▸ hmemL)
  · intro hlt' u hu
    rcases mem_levels_succ.mp hu with hu' | ⟨y, hy, huy⟩
    · left
      rcases h.hfr hlt u hu' with hv | ⟨ent, hent, _⟩
      · exact hv
      · exact absurd hent (List.not_mem_nil ent)
    · have hyv : y ∈ visited := by
        rcases h.hfr hlt y hy with hv | ⟨ent, hent, _⟩
        · exact hv
        · exact absurd hent (List.not_mem_nil ent)
      rcases h.hvis y hyv with hyL | ⟨ent, hent, hid⟩
      · left
        have : u ∈ levels (pathImage g rel) fromId (l + 1) :=
          mem_levels_succ.mpr (Or.inr ⟨y, hyL, huy⟩)
        rcases h.hfr hlt u this with hv | ⟨ent, hent, _⟩
        · exact hv
        · exact absurd hent (List.not_mem_nil ent)
      · exact Or.inr ⟨ent, hent, hid ▸ huy⟩
  · intro ht
    rcases h.htq ht with ⟨ent, hent, hid⟩
    exact ⟨ent, by simpa using (by simpa using hent : ent ∈ P), hid⟩

theorem pathIds_append (a : String) (es : List GraphEdge) (e : GraphEdge) :
    pathIds a (es ++ [e]) = pathIds a es ++ [e.to_] := by
  simp [pathIds]

/-- Partial correctness of the `findPath` BFS loop: under the invariant, a
`found` outcome is a qualifying path of minimum edge count and at most
`maxDepth` edges, and a not-found outcome means the target is outside
level `maxDepth`. -/
theorem findPathLoop_correct (g : KnowledgeGraph) (rel : List String)
    (toId : String) (md : Nat) (fromId : String) :
    ∀ (fuel l : Nat) (F P : List PEntry) (visited : List String)
      (res : Option (List String × List GraphEdge)),
      FPInv g rel toId md fromId l F P visited →
      (F = [] → P = []) →
      findPathLoop g rel toId md fuel (F ++ P) visited = some res →
      (∀ ids es, res = some (ids, es) →
        QPath g rel fromId toId es ∧ ids = pathIds fromId es ∧ es.length ≤ md ∧
        ∀ es', QPath g rel fromId toId es' → es.length ≤ es'.length) ∧
      (res = none → toId ∉ levels (pathImage g rel) fromId md) := by
  intro fuel
  induction fuel with
  | zero =>
    intro l F P visited res _ _ h
    exact absurd h (by simp [findPathLoop])
  | succ fuel ih =>
    intro l F P visited res inv hnorm hrun
    rcases hFc : F with _ | ⟨ent, F'⟩
    · -- queue exhausted: not-found
      subst hFc
      have hP0 : P = [] := hnorm rfl
      subst hP0
      have hres : res = none := by
        simp only [List.append_nil, findPathLoop, Option.some.injEq] at hrun
        exact hrun.symm
      subst hres
      constructor
      · intro ids es h
        cases h
      intro _
      have hnotv : toId ∉ visited := fun hv => by
        rcases inv.htq hv with ⟨ent, hent, _⟩
        simp at hent
      have hsub : ∀ z ∈ visited, z ∈ levels (pathImage g rel) fromId l := by
        intro z hz
        rcases inv.hvis z hz with hL | ⟨ent, hent, _⟩
        · exact hL
        · simp at hent
      intro hmd
      rcases Nat.eq_or_lt_of_le inv.hl with heq | hlt
      · exact hnotv (inv.hvisL toId (heq ▸ hmd))
      · have hsat : ∀ z, z ∈ levels (pathImage g rel) fromId (l + 1) →
            z ∈ levels (pathImage g rel) fromId l := by
          intro z hz
          rcases inv.hfr hlt z hz with hv | ⟨ent, hent, _⟩
          · exact hsub z hv
          · simp at hent
        have : toId ∈ levels (pathImage g rel) fromId l := by
          have := levels_saturated hsat (md - l) toId
          exact this (by rwa [show l + (md - l) = md by omega])
        exact hnotv (inv.hvisL toId this)
    · -- head entry of the frontier
      subst hFc
      obtain ⟨hq, hpath, hlen, hmemL, hmin⟩ := inv.hF ent (List.mem_cons_self _ _)
      have hplen : ent.path.length = l + 1 := by
        rw [hpath]; simp [pathIds, hlen]
      by_cases hto : ent.nodeId = toId
      · -- target dequeued: found, minimal
        have hres : res = some (ent.path, ent.edgePath) := by
          simp only [List.cons_append, findPathLoop] at hrun
          rw [if_pos hto] at hrun
          simp only [Option.some.injEq] at hrun
          exact hrun.symm
        subst hres
        refine ⟨?_, fun h => by cases h⟩
        intro ids es h
        injection h with h'
        injection h' with h1 h2
        subst h1; subst h2
        refine ⟨hto ▸ hq, hpath, hlen ▸ inv.hl, ?_⟩
        intro es' hq'
        by_contra hcon
        push_neg at hcon
        have : toId ∈ levels (pathImage g rel) fromId es'.length := hq'.mem_levels
        exact hmin es'.length (by omega) (hto ▸ this)
      · have hlm := inv.hl
        by_cases hdepth : md < ent.path.length
        · -- level = maxDepth: entry dropped
          have hlmd : l = md := by omega
          have hP0 : P = [] := inv.hPmd hlmd
          subst hP0
          have hrun' : findPathLoop g rel toId md fuel (F' ++ []) visited =
              some res := by
            simp only [List.cons_append, findPathLoop] at hrun
            rw [if_neg hto, if_pos hdepth] at hrun
            simpa using hrun
          refine ih l F' [] visited res ?_ (fun _ => rfl) hrun'
          refine ⟨fun e he => inv.hF e (List.mem_cons_of_mem _ he), inv.hP,
            inv.hl, fun _ => rfl, inv.hvisL, inv.hvis, ?_, ?_⟩
          · intro hlt
            exact absurd hlmd (by omega)
          · intro ht
            rcases inv.htq ht with ⟨e, he, hid⟩
            rcases (by simpa using he : e = ent ∨ e ∈ F') with rfl | he'
            · exact absurd hid hto
            · exact ⟨e, by simpa using he', hid⟩
        · -- expand the head entry
          have hlt : l < md := by omega
          obtain ⟨c1, c2, c3, c4, c5⟩ :=
            enqueueNew_spec ent (qualEdges g rel ent.nodeId) visited
          have hrun' : findPathLoop g rel toId md fuel
              (F' ++ (P ++ (enqueueNew ent (qualEdges g rel ent.nodeId) visited).1))
              (enqueueNew ent (qualEdges g rel ent.nodeId) visited).2 = some res := by
            simp only [List.cons_append, findPathLoop] at hrun
            rw [if_neg hto, if_neg hdepth] at hrun
            simpa [List.append_assoc] using hrun
          set next := enqueueNew ent (qualEdges g rel ent.nodeId) visited with hnext
          have hvissub : ∀ z ∈ visited, z ∈ next.2 := by
            intro z hz
            rw [c1]; exact List.mem_append_right _ hz
          have hnewids : ∀ z, z ∈ next.1.map (fun x => x.nodeId) →
              ∃ ent' ∈ next.1, ent'.nodeId = z := by
            intro z hz
            rcases List.mem_map.mp hz with ⟨ent', h', rfl⟩
            exact ⟨ent', h', rfl⟩
          have hnew : ∀ ent' ∈ next.1, entOk g rel fromId (l + 1) ent' := by
            intro ent' h'
            obtain ⟨e, he, rfl⟩ := c2 ent' h'
            obtain ⟨hemem, hefrom, herel⟩ := mem_qualEdges.mp he
            have hnotv : e.to_ ∉ visited := by
              refine c5 e.to_ ?_
              exact List.mem_map.mpr ⟨_, h', rfl⟩
            refine ⟨hq.snoc e hemem hefrom herel, ?_, by simp [hlen], ?_, ?_⟩
            · rw [hpath, pathIds_append]
            · exact mem_levels_succ.mpr (Or.inr ⟨ent.nodeId, hmemL,
                mem_pathImage.mpr ⟨e, hemem, hefrom, herel, rfl⟩⟩)
            · intro k hk hkL
              exact hnotv (inv.hvisL _ (levels_mono_le (by omega) hkL))
          have inv2 : FPInv g rel toId md fromId l F' (P ++ next.1) next.2 := by
            refine ⟨fun e he => inv.hF e (List.mem_cons_of_mem _ he), ?_,
              inv.hl, fun h => absurd h (by omega), ?_, ?_, ?_, ?_⟩
            · intro e he
              rcases List.mem_append.mp he with h' | h'
              · exact inv.hP e h'
              · exact hnew e h'
            · intro z hz
              exact hvissub z (inv.hvisL z hz)
            · intro z hz
              rw [c1] at hz
              rcases List.mem_append.mp hz with h' | h'
              · rcases hnewids z (List.mem_reverse.mp h') with ⟨ent', he', hid⟩
                exact Or.inr ⟨ent', List.mem_append_right _ he', hid⟩
              · rcases inv.hvis z h' with hL | ⟨ent', he', hid⟩
                · exact Or.inl hL
                · exact Or.inr ⟨ent', List.mem_append_left _ he', hid⟩
            · intro _ u hu
              rcases inv.hfr hlt u hu with hv | ⟨ent'', he'', himg⟩
              · exact Or.inl (hvissub u hv)
              · rcases List.mem_cons.mp he'' with rfl | he'
                · left
                  rcases List.mem_map.mp himg with ⟨e, he, rfl⟩
                  exact c3 e he
                · exact Or.inr ⟨ent'', he', himg⟩
            · intro ht
              rw [c1] at ht
              rcases List.mem_append.mp ht with h' | h'
              · rcases hnewids toId (List.mem_reverse.mp h') with ⟨ent', he', hid⟩
                exact ⟨ent', List.mem_append_right _ (List.mem_append_right _ he'),
                  hid⟩
              · rcases inv.htq h' with ⟨ent'', he'', hid⟩
                rcases (by simpa using he'' :
                    ent'' = ent ∨ ent'' ∈ F' ∨ ent'' ∈ P) with rfl | h'' | h''
                · exact absurd hid hto
                · exact ⟨ent'', List.mem_append_left _ h'', hid⟩
                · exact ⟨ent'', List.mem_append_right _ (List.mem_append_left _ h''),
                    hid⟩
          rcases hF'c : F' with _ | ⟨f0, F''⟩
          · subst hF'c
            have inv3 := (by simpa using inv2 : FPInv g rel toId md fromId l []
              (P ++ next.1) next.2).shiftFP hlt
            refine ih (l + 1) (P ++ next.1) [] next.2 res inv3 (fun _ => rfl) ?_
            simpa using hrun'
          · subst hF'c
            exact ih l (f0 :: F'') (P ++ next.1) next.2 res inv2
              (fun h => by cases h) hrun'

theorem length_filter_split {α : Type} (l : List α) (p : α → Bool) :
    (l.filter p).length + (l.filter (fun a => !(p a))).length = l.length := by
  induction l with
  | nil => simp
  | cons a l ih =>
    by_cases h : p a <;> simp [List.filter_cons, h, ← ih] <;> omega

theorem nodup_subset_filter_len {α : Type} [DecidableEq α] (l d : List α)
    (_hl : l.Nodup) (hd : d.Nodup) (hsub : ∀ a ∈ d, a ∈ l) :
    d.length ≤ (l.filter (fun a => decide (a ∈ d))).length := by
  calc d.length = d.toFinset.card := (List.toFinset_card_of_nodup hd).symm
    _ ≤ (l.filter (fun a => decide (a ∈ d))).toFinset.card := by
        apply Finset.card_le_card
        intro a ha
        rw [List.mem_toFinset] at ha ⊢
        exact List.mem_filter.mpr ⟨hsub a ha, by simpa using ha⟩
    _ ≤ (l.filter (fun a => decide (a ∈ d))).length :=
        (l.filter (fun a => decide (a ∈ d))).toFinset_card_le

/-- Removing a nodup batch of fresh elements from the unvisited pool costs
exactly its length. -/
theorem unvisited_drop {T added visited : List String} (hT : T.Nodup)
    (ha : added.Nodup) (hsub : ∀ a ∈ added, a ∈ T)
    (hfresh : ∀ a ∈ added, a ∉ visited) :
    (T.filter (fun z => decide (z ∉ visited) && decide (z ∉ added))).length +
        added.length ≤ (T.filter (fun z => decide (z ∉ visited))).length := by
  have hsplit := length_filter_split (T.filter (fun z => decide (z ∉ visited)))
    (fun z => decide (z ∈ added))
  have hA : T.filter (fun z => decide (z ∉ visited) && decide (z ∉ added)) =
      (T.filter (fun z => decide (z ∉ visited))).filter
        (fun z => !(decide (z ∈ added))) := by
    rw [List.filter_filter]
    apply List.filter_congr
    intro a _
    by_cases h1 : a ∈ visited <;> by_cases h2 : a ∈ added <;> simp [h1, h2]
  have hge : added.length ≤
      ((T.filter (fun z => decide (z ∉ visited))).filter
        (fun z => decide (z ∈ added))).length := by
    apply nodup_subset_filter_len _ _ (hT.filter _) ha
    intro a haa
    exact List.mem_filter.mpr ⟨hsub a haa, by simpa using hfresh a haa⟩
  rw [hA]
  omega

/-- The fuel `findPath` passes to its loop never runs out: each iteration
either shortens the queue or moves a fresh edge target into `visited`. -/
theorem findPathLoop_sufficient (g : KnowledgeGraph) (rel : List String)
    (toId : String) (md : Nat) :
    ∀ (fuel : Nat) (q : List PEntry) (visited : List String),
      q.length + ((g.edges.map (fun e => e.to_)).dedup.filter
        (fun z => decide (z ∉ visited))).length < fuel →
      findPathLoop g rel toId md fuel q visited ≠ none := by
  intro fuel
  induction fuel with
  | zero => intro q visited h; omega
  | succ fuel ih =>
    intro q visited h
    rcases q with _ | ⟨ent, rest⟩
    · simp [findPathLoop]
    · simp only [findPathLoop]
      by_cases hto : ent.nodeId = toId
      · rw [if_pos hto]; simp
      · rw [if_neg hto]
        by_cases hdepth : md < ent.path.length
        · rw [if_pos hdepth]
          apply ih
          simp only [List.length_cons] at h
          omega
        · rw [if_neg hdepth]
          obtain ⟨c1, c2, _, c4, c5⟩ :=
            enqueueNew_spec ent (qualEdges g rel ent.nodeId) visited
          set next := enqueueNew ent (qualEdges g rel ent.nodeId) visited with hn
          apply ih
          have hsub : ∀ a ∈ next.1.map (fun x => x.nodeId),
              a ∈ (g.edges.map (fun e => e.to_)).dedup := by
            intro a haa
            rcases List.mem_map.mp haa with ⟨ent', h', rfl⟩
            obtain ⟨e, he, rfl⟩ := c2 ent' h'
            rw [List.mem_dedup]
            exact List.mem_map.mpr ⟨e, (mem_qualEdges.mp he).1, rfl⟩
          have hdrop := unvisited_drop (List.nodup_dedup _) c4 hsub c5
          have hcongr : (g.edges.map (fun e => e.to_)).dedup.filter
              (fun z => decide (z ∉ next.2)) =
              (g.edges.map (fun e => e.to_)).dedup.filter
                (fun z => decide (z ∉ visited) &&
                  decide (z ∉ next.1.map (fun x => x.nodeId))) := by
            apply List.filter_congr
            intro a _
            have : a ∈ next.2 ↔
                a ∈ next.1.map (fun x => x.nodeId) ∨ a ∈ visited := by
              rw [c1]
              simp [List.mem_append, List.mem_reverse]
            by_cases h1 : a ∈ visited <;>
              by_cases h2 : a ∈ next.1.map (fun x => x.nodeId) <;>
              simp [this, h1, h2]
          rw [hcongr]
          have hql : (rest ++ next.1).length = rest.length + next.1.length := by
            simp
          have hmaplen : (next.1.map (fun x => x.nodeId)).length = next.1.length := by
            simp
          simp only [List.length_cons] at h
          have hdrop' : ((g.edges.map (fun e => e.to_)).dedup.filter
              (fun z => decide (z ∉ visited) &&
                decide (z ∉ next.1.map (fun x => x.nodeId)))).length +
              next.1.length ≤ ((g.edges.map (fun e => e.to_)).dedup.filter
                (fun z => decide (z ∉ visited))).length := by
            calc _ = ((g.edges.map (fun e => e.to_)).dedup.filter
                  (fun z => decide (z ∉ visited) &&
                    decide (z ∉ next.1.map (fun x => x.nodeId)))).length +
                  (next.1.map (fun x => x.nodeId)).length := by rw [hmaplen]
              _ ≤ _ := hdrop
          omega

/-- C6 (amended).  For `maxDepth ≥ 1` (the value `0` selects the default
`10` via `options.maxDepth || 10`, refuted separately), `findPath` is a
correct bounded BFS: it reports found exactly when a qualifying path of at
most `maxDepth` edges exists, any found path is a qualifying path of
minimum edge count among all qualifying paths (with `length` = its edge
count), and a source equal to the target yields a found path of length 0
with no edges. -/
theorem findPath_bfs_spec (g : KnowledgeGraph) (f t : GraphNode)
    (rel : List String) (maxDepth : Nat) (hmd : 1 ≤ maxDepth) :
    ∃ res, findPath (some g) (some f) (some t) rel maxDepth = .ok res ∧
      (res.found = true ↔ ∃ es, QPath g rel f.id t.id es ∧ es.length ≤ maxDepth) ∧
      (res.found = true →
        QPath g rel f.id t.id res.edges ∧ res.length = res.edges.length ∧
        ∀ es', QPath g rel f.id t.id es' → res.edges.length ≤ es'.length) ∧
      (f.id = t.id → res.found = true ∧ res.length = 0 ∧ res.edges = []) := by
  have hmd0 : ¬ maxDepth = 0 := by omega
  have inv0 : FPInv g rel t.id maxDepth f.id 0
      [⟨f.id, [f.id], []⟩] [] [f.id] := by
    refine ⟨?_, by simp, Nat.zero_le _, fun _ => rfl, ?_, ?_, ?_, ?_⟩
    · intro ent hent
      rcases (by simpa using hent : ent = ⟨f.id, [f.id], []⟩) with rfl
      exact ⟨QPath.refl f.id, by simp [pathIds], rfl, by simp [levels],
        fun k hk => absurd hk (Nat.not_lt_zero k)⟩
    · intro z hz
      rw [mem_levels_zero] at hz
      simp [hz]
    · intro z hz
      rcases (by simpa using hz : z = f.id) with rfl
      exact Or.inl (by simp [levels])
    · intro _ u hu
      rcases mem_levels_succ.mp hu with h0 | ⟨y, hy, huy⟩
      · rw [mem_levels_zero] at h0
        exact Or.inl (by simp [h0])
      · rw [mem_levels_zero] at hy
        subst hy
        exact Or.inr ⟨⟨f.id, [f.id], []⟩, by simp, huy⟩
    · intro ht
      rcases (by simpa using ht : t.id = f.id) with heq
      exact ⟨⟨f.id, [f.id], []⟩, by simp, heq.symm⟩
  have hsuf : findPathLoop g rel t.id maxDepth (g.edges.length + 2)
      [⟨f.id, [f.id], []⟩] [f.id] ≠ none := by
    apply findPathLoop_sufficient
    have h1 : ((g.edges.map (fun e => e.to_)).dedup.filter
        (fun z => decide (z ∉ [f.id]))).length ≤ g.edges.length := by
      calc ((g.edges.map (fun e => e.to_)).dedup.filter
            (fun z => decide (z ∉ [f.id]))).length
          ≤ (g.edges.map (fun e => e.to_)).dedup.length :=
            List.length_filter_le _ _
        _ ≤ (g.edges.map (fun e => e.to_)).length :=
            (List.dedup_sublist _).length_le
        _ = g.edges.length := List.length_map _ _
    simp only [List.length_cons, List.length_nil]
    omega
  obtain ⟨r, hr⟩ := Option.ne_none_iff_exists'.mp hsuf
  have hcor := findPathLoop_correct g rel t.id maxDepth f.id
    (g.edges.length + 2) 0 [⟨f.id, [f.id], []⟩] [] [f.id] r inv0
    (fun h => by cases h) (by simpa using hr)
  rcases r with _ | ⟨ids, es⟩
  · -- not found
    have hnot := hcor.2 rfl
    refine ⟨⟨[], [], 0, false⟩, ?_, ?_, ?_, ?_⟩
    · simp only [findPath, hmd0, if_false]
      rw [hr]
    · constructor
      · intro h; cases h
      · rintro ⟨es, hq, hle⟩
        exact absurd (levels_mono_le hle hq.mem_levels) hnot
    · intro h; cases h
    · intro hft
      have hq : QPath g rel f.id t.id [] := hft ▸ QPath.refl f.id
      exact absurd (levels_mono_le (Nat.zero_le _) hq.mem_levels) hnot
  · -- found
    obtain ⟨hq, hids, hlen, hminim⟩ := hcor.1 ids es rfl
    have hidslen : ids.length - 1 = es.length := by
      rw [hids]; simp [pathIds]
    refine ⟨⟨ids.map (fun i => g.nodes.find? (fun n => n.id = i)), es,
      ids.length - 1, true⟩, ?_, ?_, ?_, ?_⟩
    · simp only [findPath, hmd0, if_false]
      rw [hr]
    · exact ⟨fun _ => ⟨es, hq, hlen⟩, fun _ => rfl⟩
    · intro _
      exact ⟨hq, hidslen, hminim⟩
    · intro hft
      have hq0 : QPath g rel f.id t.id [] := hft ▸ QPath.refl f.id
      have hes0 : es.length = 0 := Nat.le_zero.mp (by simpa using hminim [] hq0)
      exact ⟨rfl, hidslen.trans hes0, List.eq_nil_of_length_eq_zero hes0⟩

/-- C6 witness: the amended BFS contract instantiated on the concrete
`a -> b` graph with `maxDepth = 5`. -/
theorem findPath_bfs_spec_witness :
    1 ≤ 5 ∧
    ∃ res, findPath (some gAB) (some nA) (some nB) [] 5 = .ok res ∧
      (res.found = true ↔ ∃ es, QPath gAB [] nA.id nB.id es ∧ es.length ≤ 5) ∧
      (res.found = true →
        QPath gAB [] nA.id nB.id res.edges ∧ res.length = res.edges.length ∧
        ∀ es', QPath gAB [] nA.id nB.id es' → res.edges.length ≤ es'.length) ∧
      (nA.id = nB.id → res.found = true ∧ res.length = 0 ∧ res.edges = []) :=
  ⟨by decide, findPath_bfs_spec gAB nA nB [] 5 (by decide)⟩

/-! ## Theorems: the `exploreGraph` BFS loop -/

theorem connOf_cons_subset (g : KnowledgeGraph) (o : ExploreOptions)
    (nodeId : String) (e : GraphEdge) (es : List GraphEdge) :
    ∀ z ∈ connOf g o nodeId es, z ∈ connOf g o nodeId (e :: es) := by
  intro z hz
  simp only [connOf, List.map_cons, List.filter_cons]
  split <;> split <;>
    first
      | exact List.mem_cons_of_mem _ hz
      | exact hz

/-- Effect of the `for (const edge of edges)` body on the BFS state: some
list `added` of fresh connected-node ids is appended (to `explored`,
the queue at `level+1`, and `resNodes`), and either the cap was not hit —
the batch was processed completely, so every qualifying connected id of
`es` ends explored — or the cap was hit and the result holds exactly
`maxNodes` nodes with `truncated` set. -/
theorem processEdges_spec (g : KnowledgeGraph) (o : ExploreOptions)
    (maxN : Nat) (nodeId : String) (level : Nat) :
    ∀ (es : List GraphEdge) (st : ExpSt),
      st.resNodes.length < maxN →
      ∃ added : List String,
        (processEdges g o maxN nodeId level es st).explored =
            added.reverse ++ st.explored ∧
        (processEdges g o maxN nodeId level es st).queue =
            st.queue ++ added.map (fun z => (z, level + 1)) ∧
        (processEdges g o maxN nodeId level es st).resNodes.map (fun n => n.id) =
            st.resNodes.map (fun n => n.id) ++ added ∧
        added.Nodup ∧
        (∀ z ∈ added, z ∉ st.explored) ∧
        (∀ z ∈ added, z ∈ connOf g o nodeId es) ∧
        (((processEdges g o maxN nodeId level es st).truncated = st.truncated ∧
            (processEdges g o maxN nodeId level es st).resNodes.length < maxN ∧
            ∀ z ∈ connOf g o nodeId es,
              z ∈ (processEdges g o maxN nodeId level es st).explored) ∨
          ((processEdges g o maxN nodeId level es st).truncated = true ∧
            (processEdges g o maxN nodeId level es st).resNodes.length = maxN)) := by
  intro es
  induction es with
  | nil =>
    intro st hlen
    refine ⟨[], by simp [processEdges], by simp [processEdges],
      by simp [processEdges], by simp, by simp, by simp [connOf], ?_⟩
    exact Or.inl ⟨rfl, hlen, by simp [connOf]⟩
  | cons e es ih =>
    intro st hlen
    by_cases hexp : st.explored.contains (if e.from_ = nodeId then e.to_ else e.from_)
    · -- already explored: only `resEdges` may change
      have hmem : (if e.from_ = nodeId then e.to_ else e.from_) ∈ st.explored := by
        simpa using hexp
      have heq : processEdges g o maxN nodeId level (e :: es) st =
          processEdges g o maxN nodeId level es
            (if o.includeEdges && !edgeRecorded st.resEdges e then
              { st with resEdges := st.resEdges ++ [e] } else st) := by
        simp only [processEdges]
        rw [if_pos hexp]
      set st1 := if o.includeEdges && !edgeRecorded st.resEdges e then
        { st with resEdges := st.resEdges ++ [e] } else st with hst1
      have hsame : st1.explored = st.explored ∧ st1.queue = st.queue ∧
          st1.resNodes = st.resNodes ∧ st1.truncated = st.truncated := by
        rw [hst1]
        split <;> exact ⟨rfl, rfl, rfl, rfl⟩
      obtain ⟨hs1, hs2, hs3, hs4⟩ := hsame
      obtain ⟨added, a1, a2, a3, a4, a5, a6, a7⟩ :=
        ih st1 (by rw [hs3]; exact hlen)
      rw [heq]
      refine ⟨added, by rw [a1, hs1], by rw [a2, hs2], by rw [a3, hs3],
        a4, by rw [← hs1]; exact a5, ?_, ?_⟩
      · intro z hz
        exact connOf_cons_subset g o nodeId e es z (a6 z hz)
      · rcases a7 with ⟨h1, h2, h3⟩ | ⟨h1, h2⟩
        · refine Or.inl ⟨h1.trans hs4, h2, ?_⟩
          intro z hz
          simp only [connOf, List.map_cons, List.filter_cons] at hz
          rcases hsplit : (match byIdGet g
              (if e.from_ = nodeId then e.to_ else e.from_) with
            | some n => !o.excludeTypes.contains n.type_
            | none => false) with _ | _
          · rw [hsplit] at hz
            simp only [Bool.false_eq_true, if_false] at hz
            exact h3 z hz
          · rw [hsplit] at hz
            simp only [if_true] at hz
            rcases List.mem_cons.mp hz with rfl | hz'
            · rw [a1, hs1]
              exact List.mem_append_right _ hmem
            · exact h3 z hz'
        · exact Or.inr ⟨h1, h2⟩
    · -- not yet explored
      rcases hbyid : byIdGet g (if e.from_ = nodeId then e.to_ else e.from_)
        with _ | cn
      · -- connected node not found: skipped
        have heq : processEdges g o maxN nodeId level (e :: es) st =
            processEdges g o maxN nodeId level es st := by
          simp only [processEdges]
          rw [if_neg hexp, hbyid]
        have hconn : connOf g o nodeId (e :: es) = connOf g o nodeId es := by
          simp only [connOf, List.map_cons, List.filter_cons, hbyid]
          simp
        rw [heq, hconn]
        exact ih st hlen
      · by_cases hexcl : o.excludeTypes.contains cn.type_
        · -- excluded type: skipped
          have heq : processEdges g o maxN nodeId level (e :: es) st =
              processEdges g o maxN nodeId level es st := by
            simp only [processEdges]
            rw [if_neg hexp]
            simp only [hbyid]
            rw [if_pos hexcl]
          have hconn : connOf g o nodeId (e :: es) = connOf g o nodeId es := by
            simp only [connOf, List.map_cons, List.filter_cons, hbyid, hexcl]
            simp
          rw [heq, hconn]
          exact ih st hlen
        · -- fresh qualifying neighbor: added
          have hcid : cn.id = (if e.from_ = nodeId then e.to_ else e.from_) :=
            (byIdGet_mem hbyid).2
          have hnotm : (if e.from_ = nodeId then e.to_ else e.from_) ∉
              st.explored := by simpa using hexp
          have hconn : connOf g o nodeId (e :: es) =
              (if e.from_ = nodeId then e.to_ else e.from_) ::
                connOf g o nodeId es := by
            simp only [connOf, List.map_cons, List.filter_cons, hbyid, hexcl]
            simp
          set st1 : ExpSt :=
            { explored := (if e.from_ = nodeId then e.to_ else e.from_) ::
                st.explored
              queue := st.queue ++
                [((if e.from_ = nodeId then e.to_ else e.from_), level + 1)]
              resNodes := st.resNodes ++ [cn]
              resEdges := if o.includeEdges then st.resEdges ++ [e]
                else st.resEdges
              truncated := st.truncated } with hst1
          by_cases hcap : maxN ≤ st1.resNodes.length
          · have heq : processEdges g o maxN nodeId level (e :: es) st =
                { st1 with truncated := true } := by
              simp only [processEdges]
              rw [if_neg hexp]
              simp only [hbyid]
              rw [if_neg hexcl]
              rw [← hst1, if_pos hcap]
            have hlen1 : st1.resNodes.length = st.resNodes.length + 1 := by
              rw [hst1]; simp
            refine ⟨[(if e.from_ = nodeId then e.to_ else e.from_)],
              by rw [heq, hst1]; simp, by rw [heq, hst1]; simp,
              ?_, by simp, by simpa using hnotm, ?_, ?_⟩
            · rw [heq, hst1]
              simp [hcid]
            · intro z hz
              rcases (by simpa using hz : z =
                (if e.from_ = nodeId then e.to_ else e.from_)) with rfl
              rw [hconn]
              exact List.mem_cons_self _ _
            · refine Or.inr ⟨by rw [heq], ?_⟩
              rw [heq]
              have : ({ st1 with truncated := true } : ExpSt).resNodes =
                  st1.resNodes := rfl
              rw [this]
              omega
          · have heq : processEdges g o maxN nodeId level (e :: es) st =
                processEdges g o maxN nodeId level es st1 := by
              simp only [processEdges]
              rw [if_neg hexp]
              simp only [hbyid]
              rw [if_neg hexcl]
              rw [← hst1, if_neg hcap]
            have hlen1 : st1.resNodes.length < maxN := by omega
            obtain ⟨added, a1, a2, a3, a4, a5, a6, a7⟩ := ih st1 hlen1
            have hst1ex : st1.explored =
                (if e.from_ = nodeId then e.to_ else e.from_) :: st.explored :=
              rfl
            have hst1q : st1.queue = st.queue ++
                [((if e.from_ = nodeId then e.to_ else e.from_), level + 1)] :=
              rfl
            have hst1rn : st1.resNodes = st.resNodes ++ [cn] := rfl
            refine ⟨(if e.from_ = nodeId then e.to_ else e.from_) :: added,
              ?_, ?_, ?_, ?_, ?_, ?_, ?_⟩
            · rw [heq, a1, hst1ex]
              simp
            · rw [heq, a2, hst1q]
              simp
            · rw [heq, a3, hst1rn]
              simp [hcid]
            · refine List.nodup_cons.mpr ⟨?_, a4⟩
              intro hmem
              exact (a5 _ hmem) (by rw [hst1ex]; exact List.mem_cons_self _ _)
            · intro z hz
              rcases List.mem_cons.mp hz with rfl | hz'
              · exact hnotm
              · intro hzin
                exact (a5 z hz') (by rw [hst1ex]; exact List.mem_cons_of_mem _ hzin)
            · intro z hz
              rw [hconn]
              rcases List.mem_cons.mp hz with rfl | hz'
              · exact List.mem_cons_self _ _
              · exact List.mem_cons_of_mem _ (a6 z hz')
            · rcases a7 with ⟨h1, h2, h3⟩ | ⟨h1, h2⟩
              · refine Or.inl ⟨by rw [heq, h1], by rw [heq]; exact h2, ?_⟩
                intro z hz
                rw [hconn] at hz
                rcases List.mem_cons.mp hz with rfl | hz'
                · rw [heq, a1]
                  refine List.mem_append_right _ ?_
                  rw [hst1ex]
                  exact List.mem_cons_self _ _
                · rw [heq]
                  exact h3 z hz'
              · exact Or.inr ⟨by rw [heq]; exact h1, by rw [heq]; exact h2⟩

/-- Re-basing the exploration invariant once the level-`l` frontier is
exhausted. -/
theorem ExpInv.shiftExp {g : KnowledgeGraph} {o : ExploreOptions}
    {effDepth : Nat} {rootId : String} {l : Nat} {P : List String} {st : ExpSt}
    (h : ExpInv g o effDepth rootId l [] P st) (hlt : l < effDepth) :
    ExpInv g o effDepth rootId (l + 1) P [] st := by
  have hvisL' : ∀ z ∈ levels (exploreImage g o) rootId (l + 1), z ∈ st.explored := by
    intro z hz
    rcases h.hfr hlt z hz with hv | ⟨y, hy, _⟩
    · exact hv
    · simp at hy
  refine ⟨?_, h.hP, by simp, hlt, fun _ => rfl, hvisL', ?_, ?_, h.hnodup, h.hcorr⟩
  · rw [h.hqueue]; simp
  · intro z hz
    rcases h.hvis z hz with hL | hP'
    · exact Or.inl (levels_mono hL)
    · exact Or.inl (h.hP z hP')
  · intro hlt' u hu
    rcases mem_levels_succ.mp hu with hu' | ⟨y, hy, huy⟩
    · exact Or.inl (hvisL' u hu')
    · have hyv : y ∈ st.explored := hvisL' y hy
      rcases h.hvis y hyv with hyL | hyP
      · exact Or.inl (hvisL' u (mem_levels_succ.mpr (Or.inr ⟨y, hyL, huy⟩)))
      · exact Or.inr ⟨y, hyP, huy⟩

/-- Once the node cap is reached, the loop returns its state unchanged. -/
theorem exploreLoop_stop {g : KnowledgeGraph} {o : ExploreOptions}
    {maxN effDepth : Nat} {st : ExpSt} (hcap : maxN ≤ st.resNodes.length)
    (fuel : Nat) : exploreLoop g o maxN effDepth (fuel + 1) st = some st := by
  rcases hq : st.queue with _ | ⟨⟨nodeId, level⟩, rest⟩
  · simp [exploreLoop, hq]
  · simp only [exploreLoop, hq]
    rw [if_pos hcap]

/-- Partial correctness of the `exploreGraph` BFS loop: the final state is
sound (distinct explored ids, all within `effDepth`, one result node per
explored id), and either the run was truncated at exactly `maxNodes`
nodes, or it completed with fewer than `maxNodes` nodes covering the whole
reachable set. -/
theorem exploreLoop_correct (g : KnowledgeGraph) (o : ExploreOptions)
    (maxN effDepth : Nat) (rootId : String) :
    ∀ (fuel l : Nat) (F P : List String) (st st' : ExpSt),
      ExpInv g o effDepth rootId l F P st →
      (F = [] → P = []) →
      st.truncated = false →
      st.resNodes.length < maxN →
      exploreLoop g o maxN effDepth fuel st = some st' →
      (st'.explored.Nodup ∧
        st'.resNodes.length = st'.explored.length ∧
        (∀ z ∈ st'.explored, z ∈ levels (exploreImage g o) rootId effDepth)) ∧
      ((st'.truncated = true ∧ st'.resNodes.length = maxN) ∨
        (st'.truncated = false ∧ st'.resNodes.length < maxN ∧
          ∀ z ∈ levels (exploreImage g o) rootId effDepth, z ∈ st'.explored)) := by
  intro fuel
  induction fuel with
  | zero =>
    intro l F P st st' _ _ _ _ h
    exact absurd h (by simp [exploreLoop])
  | succ fuel ih =>
    intro l F P st st' inv hnorm htr hlen hrun
    have hcorrlen : ∀ s : ExpSt, s.resNodes.map (fun n => n.id) = s.explored.reverse →
        s.resNodes.length = s.explored.length := by
      intro s hc
      have := congrArg List.length hc
      simpa using this
    rcases hFc : F with _ | ⟨z₀, F'⟩
    · -- queue exhausted
      subst hFc
      have hP0 : P = [] := hnorm rfl
      subst hP0
      have hq : st.queue = [] := by rw [inv.hqueue]; simp
      have hst' : st' = st := by
        simp only [exploreLoop, hq, Option.some.injEq] at hrun
        exact hrun.symm
      rw [hst']
      have hsound : ∀ z ∈ st.explored, z ∈ levels (exploreImage g o) rootId effDepth := by
        intro z hz
        rcases inv.hvis z hz with hL | hP'
        · exact levels_mono_le inv.hl hL
        · simp at hP'
      refine ⟨⟨inv.hnodup, hcorrlen st inv.hcorr, hsound⟩, Or.inr ⟨htr, hlen, ?_⟩⟩
      rcases Nat.eq_or_lt_of_le inv.hl with heq | hlt
      · intro z hz
        exact inv.hvisL z (heq ▸ hz)
      · have hsat : ∀ z, z ∈ levels (exploreImage g o) rootId (l + 1) →
            z ∈ levels (exploreImage g o) rootId l := by
          intro z hz
          rcases inv.hfr hlt z hz with hv | ⟨y, hy, _⟩
          · rcases inv.hvis z hv with hL | hP'
            · exact hL
            · simp at hP'
          · simp at hy
        intro z hz
        refine inv.hvisL z ?_
        exact levels_saturated hsat (effDepth - l) z
          (by rwa [show l + (effDepth - l) = effDepth by omega])
    · -- head of the frontier
      subst hFc
      have hq : st.queue = (z₀, l) :: (F'.map (fun z => (z, l)) ++
          P.map (fun z => (z, l + 1))) := by rw [inv.hqueue]; simp
      have hz₀L : z₀ ∈ levels (exploreImage g o) rootId l :=
        inv.hF z₀ (List.mem_cons_self _ _)
      have hnotcap : ¬ maxN ≤ st.resNodes.length := by omega
      by_cases hdepth : effDepth ≤ l
      · -- level = effDepth: entry dropped
        have hleq : l = effDepth := by
          have := inv.hl; omega
        have hP0 : P = [] := inv.hPmd hleq
        subst hP0
        have hrun' : exploreLoop g o maxN effDepth fuel
            { st with queue := F'.map (fun z => (z, l)) } = some st' := by
          simp only [exploreLoop, hq] at hrun
          rw [if_neg hnotcap, if_pos hdepth] at hrun
          simpa using hrun
        refine ih l F' [] { st with queue := F'.map (fun z => (z, l)) } st' ?_
          (fun _ => rfl) htr hlen hrun'
        refine ⟨by simp, fun z hz => inv.hF z (List.mem_cons_of_mem _ hz),
          by simp, inv.hl, fun _ => rfl, inv.hvisL, ?_, ?_, inv.hnodup, inv.hcorr⟩
        · intro z hz
          rcases inv.hvis z hz with hL | hP'
          · exact Or.inl hL
          · simp at hP'
        · intro hlt
          exact absurd hleq (by omega)
      · -- expand the head frontier vertex
        have hlt : l < effDepth := by omega
        have hrun' : exploreLoop g o maxN effDepth fuel
            (processEdges g o maxN z₀ l (edgesFor g o z₀)
              { st with queue := F'.map (fun z => (z, l)) ++ P.map (fun z => (z, l + 1)) })
            = some st' := by
          simp only [exploreLoop, hq] at hrun
          rw [if_neg hnotcap, if_neg hdepth] at hrun
          exact hrun
        obtain ⟨added, a1, a2, a3, a4, a5, a6, a7⟩ :=
          processEdges_spec g o maxN z₀ l (edgesFor g o z₀)
            { st with queue := F'.map (fun z => (z, l)) ++ P.map (fun z => (z, l + 1)) }
            hlen
        set st₁ := processEdges g o maxN z₀ l (edgesFor g o z₀)
          { st with queue := F'.map (fun z => (z, l)) ++ P.map (fun z => (z, l + 1)) }
          with hst₁
        have a1' : st₁.explored = added.reverse ++ st.explored := a1
        have a2' : st₁.queue = (F'.map (fun z => (z, l)) ++
            P.map (fun z => (z, l + 1))) ++ added.map (fun z => (z, l + 1)) := a2
        have a3' : st₁.resNodes.map (fun n => n.id) =
            st.resNodes.map (fun n => n.id) ++ added := a3
        have a5' : ∀ z ∈ added, z ∉ st.explored := a5
        have a6' : ∀ z ∈ added, z ∈ exploreImage g o z₀ := a6
        have haddedL : ∀ z ∈ added, z ∈ levels (exploreImage g o) rootId (l + 1) := by
          intro z hz
          exact mem_levels_succ.mpr (Or.inr ⟨z₀, hz₀L, a6' z hz⟩)
        have hnodup₁ : st₁.explored.Nodup := by
          rw [a1']
          refine List.nodup_append.mpr ⟨by simpa using a4, inv.hnodup, ?_⟩
          intro x hx hx'
          exact a5' x (by simpa using hx) hx'
        have hcorr₁ : st₁.resNodes.map (fun n => n.id) = st₁.explored.reverse := by
          rw [a1', a3']
          simp only [List.reverse_append, List.reverse_reverse]
          rw [inv.hcorr]
        have hsound₁ : ∀ z ∈ st₁.explored,
            z ∈ levels (exploreImage g o) rootId (l + 1) := by
          intro z hz
          rw [a1'] at hz
          rcases List.mem_append.mp hz with h' | h'
          · exact haddedL z (List.mem_reverse.mp h')
          · rcases inv.hvis z h' with hL | hP'
            · exact levels_mono hL
            · exact inv.hP z hP'
        rcases a7 with ⟨o1, o2, o3⟩ | ⟨o1, o2⟩
        · -- no truncation during this batch: invariant preserved
          have o1' : st₁.truncated = st.truncated := o1
          have o3' : ∀ z ∈ exploreImage g o z₀, z ∈ st₁.explored := o3
          have inv₂ : ExpInv g o effDepth rootId l F' (P ++ added) st₁ := by
            refine ⟨?_, fun z hz => inv.hF z (List.mem_cons_of_mem _ hz), ?_,
              inv.hl, fun h => absurd h (by omega), ?_, ?_, ?_, hnodup₁, hcorr₁⟩
            · rw [a2']
              simp [List.map_append, List.append_assoc]
            · intro z hz
              rcases List.mem_append.mp hz with h' | h'
              · exact inv.hP z h'
              · exact haddedL z h'
            · intro z hz
              rw [a1']
              exact List.mem_append_right _ (inv.hvisL z hz)
            · intro z hz
              rw [a1'] at hz
              rcases List.mem_append.mp hz with h' | h'
              · exact Or.inr (List.mem_append_right _ (List.mem_reverse.mp h'))
              · rcases inv.hvis z h' with hL | hP'
                · exact Or.inl hL
                · exact Or.inr (List.mem_append_left _ hP')
            · intro _ u hu
              rcases inv.hfr hlt u hu with hv | ⟨y, hy, huy⟩
              · left
                rw [a1']
                exact List.mem_append_right _ hv
              · rcases List.mem_cons.mp hy with rfl | hy'
                · exact Or.inl (o3' u huy)
                · exact Or.inr ⟨y, hy', huy⟩
          have htr₁ : st₁.truncated = false := o1'.trans htr
          rcases hF'c : F' with _ | ⟨f0, F''⟩
          · subst hF'c
            have inv₃ := (by simpa using inv₂ :
              ExpInv g o effDepth rootId l [] (P ++ added) st₁).shiftExp hlt
            exact ih (l + 1) (P ++ added) [] st₁ st' inv₃ (fun _ => rfl) htr₁ o2 hrun'
          · subst hF'c
            exact ih l (f0 :: F'') (P ++ added) st₁ st' inv₂
              (fun h => by cases h) htr₁ o2 hrun'
        · -- cap hit inside this batch: one more iteration returns the state
          have hst' : st' = st₁ := by
            rcases fuel with _ | fuel'
            · exact absurd hrun' (by simp [exploreLoop])
            · rw [exploreLoop_stop (by omega) fuel'] at hrun'
              simp only [Option.some.injEq] at hrun'
              exact hrun'.symm
          rw [hst']
          exact ⟨⟨hnodup₁, hcorrlen st₁ hcorr₁,
            fun z hz => levels_mono_le (by omega) (hsound₁ z hz)⟩,
            Or.inl ⟨o1, o2⟩⟩

theorem nodup_subset_length {A B : List String} (hA : A.Nodup)
    (hsub : ∀ a ∈ A, a ∈ B) : A.length ≤ B.length := by
  calc A.length = A.toFinset.card := (List.toFinset_card_of_nodup hA).symm
    _ ≤ B.toFinset.card := by
        apply Finset.card_le_card
        intro a ha
        rw [List.mem_toFinset] at ha ⊢
        exact hsub a ha
    _ ≤ B.length := B.toFinset_card_le

theorem connOf_mem_nodeIds {g : KnowledgeGraph} {o : ExploreOptions}
    {nodeId z : String} {es : List GraphEdge} (h : z ∈ connOf g o nodeId es) :
    z ∈ g.nodes.map (fun n => n.id) := by
  rcases List.mem_filter.mp h with ⟨_, hpred⟩
  rcases hb : byIdGet g z with _ | n
  · rw [hb] at hpred
    simp at hpred
  · obtain ⟨hmem, hid⟩ := byIdGet_mem hb
    exact List.mem_map.mpr ⟨n, hmem, hid⟩

/-- The fuel `exploreGraph` passes to its loop never runs out: each
iteration either shortens the queue or moves fresh graph-node ids into
`explored`. -/
theorem exploreLoop_sufficient (g : KnowledgeGraph) (o : ExploreOptions)
    (maxN effDepth : Nat) :
    ∀ (fuel : Nat) (st : ExpSt),
      st.queue.length + ((g.nodes.map (fun n => n.id)).dedup.filter
        (fun z => decide (z ∉ st.explored))).length < fuel →
      exploreLoop g o maxN effDepth fuel st ≠ none := by
  intro fuel
  induction fuel with
  | zero => intro st h; omega
  | succ fuel ih =>
    intro st h
    rcases hq : st.queue with _ | ⟨⟨nodeId, level⟩, rest⟩
    · simp [exploreLoop, hq]
    · simp only [exploreLoop, hq]
      by_cases hcap : maxN ≤ st.resNodes.length
      · rw [if_pos hcap]; simp
      · rw [if_neg hcap]
        by_cases hdepth : effDepth ≤ level
        · rw [if_pos hdepth]
          apply ih
          rw [hq] at h
          simp only [List.length_cons] at h
          simpa using (by omega :
            rest.length + ((g.nodes.map (fun n => n.id)).dedup.filter
              (fun z => decide (z ∉ st.explored))).length < fuel)
        · rw [if_neg hdepth]
          have hlen : ({ st with queue := rest } : ExpSt).resNodes.length < maxN := by
            simpa using Nat.lt_of_not_le hcap
          obtain ⟨added, a1, a2, a3, a4, a5, a6, a7⟩ :=
            processEdges_spec g o maxN nodeId level (edgesFor g o nodeId)
              { st with queue := rest } hlen
          apply ih
          have hsub : ∀ a ∈ added, a ∈ (g.nodes.map (fun n => n.id)).dedup := by
            intro a haa
            rw [List.mem_dedup]
            exact connOf_mem_nodeIds (a6 a haa)
          have hfresh : ∀ a ∈ added, a ∉ st.explored := a5
          have hdrop := unvisited_drop (List.nodup_dedup _) a4 hsub hfresh
          have hcongr : (g.nodes.map (fun n => n.id)).dedup.filter
              (fun z => decide (z ∉ (processEdges g o maxN nodeId level
                (edgesFor g o nodeId) { st with queue := rest }).explored)) =
              (g.nodes.map (fun n => n.id)).dedup.filter
                (fun z => decide (z ∉ st.explored) && decide (z ∉ added)) := by
            apply List.filter_congr
            intro a _
            have hmemiff : a ∈ (processEdges g o maxN nodeId level
                (edgesFor g o nodeId) { st with queue := rest }).explored ↔
                a ∈ added ∨ a ∈ st.explored := by
              rw [a1]
              simp [List.mem_append, List.mem_reverse]
            by_cases h1 : a ∈ st.explored <;> by_cases h2 : a ∈ added <;>
              simp [hmemiff, h1, h2]
          rw [hcongr]
          have hqlen : (processEdges g o maxN nodeId level (edgesFor g o nodeId)
              { st with queue := rest }).queue.length =
              rest.length + added.length := by
            rw [a2]
            simp
          rw [hqlen]
          rw [hq] at h
          simp only [List.length_cons] at h
          omega

/-- C3 (amended).  `exploreGraph` sets `truncated = true` iff the effective
`maxNodes` (0 selects the default 100) is at least 2 and the number of
nodes reachable from the root within the effective depth (0 selects the
default 2), after direction/relation/exclusion filtering, is at least
`maxNodes` (not strictly greater): the loop stops and flags as soon as the
result reaches `maxNodes` nodes, and with `maxNodes ≤ 1` the loop never
starts, so the flag stays false. -/
theorem explore_truncated_iff (g : KnowledgeGraph) (root : GraphNode)
    (o : ExploreOptions) :
    ∃ res, exploreGraph (some g) (some root) o = .ok res ∧
      (res.truncated = true ↔
        2 ≤ (if o.maxNodes = 0 then 100 else o.maxNodes) ∧
        (if o.maxNodes = 0 then 100 else o.maxNodes) ≤
          (specReachable g o root.id (if o.depth = 0 then 2 else o.depth)).length) := by
  obtain ⟨effD, heffD⟩ : ∃ d, (if o.depth = 0 then 2 else o.depth) = d := ⟨_, rfl⟩
  obtain ⟨maxN, hmaxN⟩ : ∃ m, (if o.maxNodes = 0 then 100 else o.maxNodes) = m :=
    ⟨_, rfl⟩
  have hD : 1 ≤ effD := by rw [← heffD]; split <;> omega
  have hN : 1 ≤ maxN := by rw [← hmaxN]; split <;> omega
  have hsuf : exploreLoop g o maxN effD (g.nodes.length + 2)
      ⟨[root.id], [(root.id, 0)], [root], [], false⟩ ≠ none := by
    apply exploreLoop_sufficient
    have h1 : ((g.nodes.map (fun n => n.id)).dedup.filter
        (fun z => decide (z ∉ ([root.id] : List String)))).length ≤
        g.nodes.length := by
      calc ((g.nodes.map (fun n => n.id)).dedup.filter
            (fun z => decide (z ∉ ([root.id] : List String)))).length
          ≤ (g.nodes.map (fun n => n.id)).dedup.length := List.length_filter_le _ _
        _ ≤ (g.nodes.map (fun n => n.id)).length := (List.dedup_sublist _).length_le
        _ = g.nodes.length := List.length_map _ _
    simp only [List.length_cons, List.length_nil]
    omega
  obtain ⟨stf, hst⟩ := Option.ne_none_iff_exists'.mp hsuf
  have hout : exploreGraph (some g) (some root) o =
      .ok ⟨stf.resNodes, stf.resEdges, some root.id, effD, stf.truncated,
        g.nodes.length⟩ := by
    simp only [exploreGraph, heffD, hmaxN]
    rw [hst]
  rw [heffD, hmaxN, hout]
  refine ⟨_, rfl, ?_⟩
  show stf.truncated = true ↔ 2 ≤ maxN ∧
    maxN ≤ (levels (exploreImage g o) root.id effD).length
  rcases Nat.eq_or_lt_of_le hN with h1 | h2
  · -- maxNodes = 1: the loop never runs
    have hstop : exploreLoop g o maxN effD (g.nodes.length + 2)
        ⟨[root.id], [(root.id, 0)], [root], [], false⟩ =
        some ⟨[root.id], [(root.id, 0)], [root], [], false⟩ :=
      exploreLoop_stop (by simp; omega) (g.nodes.length + 1)
    have hstf : stf = ⟨[root.id], [(root.id, 0)], [root], [], false⟩ := by
      rw [hstop] at hst
      simpa using hst.symm
    rw [hstf]
    simp
    omega
  · -- maxNodes ≥ 2: the BFS runs under the invariant
    have inv0 : ExpInv g o effD root.id 0 [root.id] []
        ⟨[root.id], [(root.id, 0)], [root], [], false⟩ := by
      refine ⟨by simp, ?_, by simp, Nat.zero_le _, fun h0 => absurd h0 (by omega),
        ?_, ?_, ?_, by simp, by simp⟩
      · intro z hz
        rcases (by simpa using hz : z = root.id) with rfl
        simp [levels]
      · intro z hz
        rw [mem_levels_zero] at hz
        simp [hz]
      · intro z hz
        rcases (by simpa using hz : z = root.id) with rfl
        exact Or.inl (by simp [levels])
      · intro _ u hu
        rcases mem_levels_succ.mp hu with h0 | ⟨y, hy, huy⟩
        · rw [mem_levels_zero] at h0
          exact Or.inl (by simp [h0])
        · rw [mem_levels_zero] at hy
          subst hy
          exact Or.inr ⟨root.id, by simp, huy⟩
    have hcor := exploreLoop_correct g o maxN effD root.id
      (g.nodes.length + 2) 0 [root.id] []
      ⟨[root.id], [(root.id, 0)], [root], [], false⟩ stf inv0
      (fun h0 => by cases h0) rfl (by simpa using h2) hst
    obtain ⟨⟨hnd, hleneq, hsound⟩, hbr⟩ := hcor
    constructor
    · intro htr
      rcases hbr with ⟨_, hlenmax⟩ | ⟨htrf, _, _⟩
      · refine ⟨by omega, ?_⟩
        have hle : stf.explored.length ≤
            (levels (exploreImage g o) root.id effD).length :=
          nodup_subset_length hnd hsound
        omega
      · rw [htrf] at htr
        cases htr
    · rintro ⟨_, hge⟩
      rcases hbr with ⟨htrt, _⟩ | ⟨htrf, hlenlt, hcompl⟩
      · exact htrt
      · have hle : (levels (exploreImage g o) root.id effD).length ≤
            stf.explored.length :=
          nodup_subset_length (levels_nodup _ _ _) hcompl
        omega

/-! ## Theorems: decimal rendering of the node counter

`normalizeId` embeds `++this.nodeCounter` in decimal between underscores;
uniqueness of canonical ids reduces to injectivity of that rendering. -/

theorem digitChar_val {d : Nat} (hd : d < 10) :
    (Nat.digitChar d).toNat - 48 = d ∧ Nat.digitChar d ≠ '_' := by
  interval_cases d <;> exact ⟨rfl, by decide⟩

theorem decode_toDigitsCore :
    ∀ (f n : Nat) (l : List Char), n < f →
      (Nat.toDigitsCore 10 f n l).foldl (fun acc c => acc * 10 + (c.toNat - 48)) 0 =
        l.foldl (fun acc c => acc * 10 + (c.toNat - 48)) n := by
  intro f
  induction f with
  | zero => intro n l h; omega
  | succ f ih =>
    intro n l h
    have hd := (digitChar_val (Nat.mod_lt n (by norm_num))).1
    simp only [Nat.toDigitsCore]
    by_cases h0 : n / 10 = 0
    · rw [if_pos h0]
      simp only [List.foldl_cons, hd]
      congr 1
      omega
    · rw [if_neg h0]
      have hlt : n / 10 < f := by omega
      rw [ih (n / 10) _ hlt]
      simp only [List.foldl_cons, hd]
      congr 1
      omega

theorem decode_repr (n : Nat) :
    (Nat.repr n).data.foldl (fun acc c => acc * 10 + (c.toNat - 48)) 0 = n := by
  have hdata : (Nat.repr n).data = Nat.toDigitsCore 10 (n + 1) n [] := rfl
  rw [hdata, decode_toDigitsCore (n + 1) n [] (Nat.lt_succ_self n)]
  rfl

theorem repr_data_inj {m n : Nat} (h : (Nat.repr m).data = (Nat.repr n).data) :
    m = n := by
  have hm := decode_repr m
  rw [h, decode_repr n] at hm
  exact hm.symm

theorem toDigitsCore_no_underscore :
    ∀ (f n : Nat) (l : List Char), '_' ∉ l → '_' ∉ Nat.toDigitsCore 10 f n l := by
  intro f
  induction f with
  | zero => intro n l h; simpa [Nat.toDigitsCore] using h
  | succ f ih =>
    intro n l h
    have hdc : Nat.digitChar (n % 10) ≠ '_' :=
      (digitChar_val (Nat.mod_lt n (by norm_num))).2
    have hcons : '_' ∉ Nat.digitChar (n % 10) :: l := by
      intro hmem
      rcases List.mem_cons.mp hmem with heq | hmem'
      · exact hdc heq.symm
      · exact h hmem'
    simp only [Nat.toDigitsCore]
    by_cases h0 : n / 10 = 0
    · rw [if_pos h0]
      exact hcons
    · rw [if_neg h0]
      exact ih (n / 10) _ hcons

theorem repr_no_underscore (n : Nat) : '_' ∉ (Nat.repr n).data := by
  have hdata : (Nat.repr n).data = Nat.toDigitsCore 10 (n + 1) n [] := rfl
  rw [hdata]
  exact toDigitsCore_no_underscore (n + 1) n [] (by simp)

/-- Splitting at the first separator: two underscore-free prefixes followed
by `'_'` coincide when the full lists do. -/
theorem append_sep_inj :
    ∀ (l1 l2 t1 t2 : List Char), '_' ∉ l1 → '_' ∉ l2 →
      l1 ++ '_' :: t1 = l2 ++ '_' :: t2 → l1 = l2 ∧ t1 = t2 := by
  intro l1
  induction l1 with
  | nil =>
    intro l2 t1 t2 _ h2 heq
    cases l2 with
    | nil => simpa using heq
    | cons c l2' =>
      simp only [List.nil_append, List.cons_append, List.cons.injEq] at heq
      rw [← heq.1] at h2
      exact absurd (List.mem_cons_self _ _) h2
  | cons c l1' ih =>
    intro l2 t1 t2 h1 h2 heq
    cases l2 with
    | nil =>
      simp only [List.cons_append, List.nil_append, List.cons.injEq] at heq
      rw [heq.1] at h1
      exact absurd (List.mem_cons_self _ _) h1
    | cons c' l2' =>
      simp only [List.cons_append, List.cons.injEq] at heq
      obtain ⟨hl, ht⟩ := ih l2' t1 t2
        (fun hm => h1 (List.mem_cons_of_mem _ hm))
        (fun hm => h2 (List.mem_cons_of_mem _ hm)) heq.2
      exact ⟨by rw [heq.1, hl], ht⟩

/-- Two canonical ids built from different counter values differ, whatever
the hash suffixes are. -/
theorem nodeKey_counter_inj {i j : Nat} {hi hj : String}
    (h : "node_" ++ Nat.repr i ++ "_" ++ hi = "node_" ++ Nat.repr j ++ "_" ++ hj) :
    i = j := by
  have happ : ∀ (s t : String), (s ++ t).data = s.data ++ t.data := fun s t => rfl
  have hdata : ("node_" ++ Nat.repr i ++ "_" ++ hi).data =
      ("node_" ++ Nat.repr j ++ "_" ++ hj).data := by rw [h]
  simp only [happ, List.append_assoc] at hdata
  have hcancel : (Nat.repr i).data ++ ("_".data ++ hi.data) =
      (Nat.repr j).data ++ ("_".data ++ hj.data) :=
    List.append_cancel_left hdata
  have hsep : (Nat.repr i).data ++ '_' :: hi.data =
      (Nat.repr j).data ++ '_' :: hj.data := by
    simpa using hcancel
  exact repr_data_inj (append_sep_inj _ _ _ _ (repr_no_underscore i)
    (repr_no_underscore j) hsep).1

/-! ## Theorems: `buildIndexes` fold invariants -/

theorem mapSet_fresh {β : Type} :
    ∀ (l : List (String × β)) (k : String) (v : β),
      k ∉ l.map Prod.fst → mapSet l k v = l ++ [(k, v)] := by
  intro l
  induction l with
  | nil => intro k v _; rfl
  | cons p rest ih =>
    intro k v h
    obtain ⟨k', v'⟩ := p
    have htail : k ∉ List.map Prod.fst rest := by
      intro hm
      exact h (by simp only [List.map_cons]; exact List.mem_cons_of_mem _ hm)
    simp only [mapSet]
    rw [if_neg (fun he => h (by simp [he]))]
    rw [ih k v htail]
    rfl

theorem fold_counter (hash : String → String) :
    ∀ (ns : List GraphNode) (st : NodeIndex),
      (ns.foldl (buildStep hash) st).nodeCounter = st.nodeCounter + ns.length := by
  intro ns
  induction ns with
  | nil => intro st; rfl
  | cons n rest ih =>
    intro st
    simp only [List.foldl_cons]
    rw [ih (buildStep hash st n)]
    show st.nodeCounter + 1 + rest.length = st.nodeCounter + (n :: rest).length
    simp only [List.length_cons]
    omega

/-- The fold of `buildStep` keeps the keys of the nodes map pairwise
distinct and adds exactly one binding per node: every key embeds a counter
value bounded by the current counter, so the next key is always fresh. -/
theorem buildFold_nodes_keys (hash : String → String) :
    ∀ (ns : List GraphNode) (st : NodeIndex),
      (∀ k ∈ st.nodes.map Prod.fst,
        ∃ i s, k = "node_" ++ Nat.repr i ++ "_" ++ s ∧ i ≤ st.nodeCounter) →
      (st.nodes.map Prod.fst).Nodup →
      (∀ k ∈ (ns.foldl (buildStep hash) st).nodes.map Prod.fst,
        ∃ i s, k = "node_" ++ Nat.repr i ++ "_" ++ s ∧
          i ≤ (ns.foldl (buildStep hash) st).nodeCounter) ∧
      ((ns.foldl (buildStep hash) st).nodes.map Prod.fst).Nodup ∧
      (ns.foldl (buildStep hash) st).nodes.length = st.nodes.length + ns.length := by
  intro ns
  induction ns with
  | nil => intro st hkeys hnd; exact ⟨hkeys, hnd, rfl⟩
  | cons node rest ih =>
    intro st hkeys hnd
    simp only [List.foldl_cons]
    have hfresh : normalizeId hash st.nodeCounter node.id ∉ st.nodes.map Prod.fst := by
      intro hmem
      obtain ⟨i, s, hk, hile⟩ := hkeys _ hmem
      have hk' : "node_" ++ Nat.repr (st.nodeCounter + 1) ++ "_" ++
          (hash node.id).take 8 = "node_" ++ Nat.repr i ++ "_" ++ s := hk
      have := nodeKey_counter_inj hk'
      omega
    have hnodes : (buildStep hash st node).nodes =
        st.nodes ++ [(normalizeId hash st.nodeCounter node.id,
          withCanonicalId node (normalizeId hash st.nodeCounter node.id))] :=
      mapSet_fresh st.nodes _ _ hfresh
    have hcnt : (buildStep hash st node).nodeCounter = st.nodeCounter + 1 := rfl
    have hkeys' : ∀ k ∈ (buildStep hash st node).nodes.map Prod.fst,
        ∃ i s, k = "node_" ++ Nat.repr i ++ "_" ++ s ∧
          i ≤ (buildStep hash st node).nodeCounter := by
      intro k hk
      rw [hnodes, List.map_append] at hk
      rcases List.mem_append.mp hk with h' | h'
      · obtain ⟨i, s, hki, hile⟩ := hkeys k h'
        exact ⟨i, s, hki, by rw [hcnt]; omega⟩
      · simp only [List.map_cons, List.map_nil, List.mem_singleton] at h'
        exact ⟨st.nodeCounter + 1, (hash node.id).take 8, h', by rw [hcnt]⟩
    have hnd' : ((buildStep hash st node).nodes.map Prod.fst).Nodup := by
      rw [hnodes, List.map_append]
      simp only [List.map_cons, List.map_nil]
      refine List.Nodup.append hnd (List.nodup_singleton _) ?_
      intro a ha hb
      rw [List.mem_singleton] at hb
      rw [hb] at ha
      exact hfresh ha
    obtain ⟨r1, r2, r3⟩ := ih (buildStep hash st node) hkeys' hnd'
    refine ⟨r1, r2, ?_⟩
    rw [r3, hnodes]
    simp only [List.length_append, List.length_cons, List.length_nil]
    omega

/-- Looking up a canonical key whose embedded counter is at most the
current counter is unaffected by the rest of the fold: all later bindings
carry strictly larger counter values. -/
theorem fold_nodes_get_preserved (hash : String → String) :
    ∀ (ns : List GraphNode) (st : NodeIndex) (i : Nat) (s : String),
      i ≤ st.nodeCounter →
      mapGet (ns.foldl (buildStep hash) st).nodes
        ("node_" ++ Nat.repr i ++ "_" ++ s) =
      mapGet st.nodes ("node_" ++ Nat.repr i ++ "_" ++ s) := by
  intro ns
  induction ns with
  | nil => intro st i s _; rfl
  | cons node rest ih =>
    intro st i s hle
    simp only [List.foldl_cons]
    rw [ih (buildStep hash st node) i s
      (by show i ≤ st.nodeCounter + 1; omega)]
    have hstep : (buildStep hash st node).nodes =
        mapSet st.nodes (normalizeId hash st.nodeCounter node.id)
          (withCanonicalId node (normalizeId hash st.nodeCounter node.id)) := rfl
    rw [hstep]
    refine mapGet_mapSet_ne _ _ _ _ ?_
    intro he
    have he' : "node_" ++ Nat.repr i ++ "_" ++ s =
        "node_" ++ Nat.repr (st.nodeCounter + 1) ++ "_" ++
          (hash node.id).take 8 := he
    have := nodeKey_counter_inj he'
    omega

/-- Looking up a key in the original-id index is unaffected by folding
nodes whose id and name both differ from that key. -/
theorem fold_orig_get_preserved (hash : String → String) :
    ∀ (ns : List GraphNode) (st : NodeIndex) (k : String),
      (∀ w ∈ ns, w.id ≠ k ∧ w.name ≠ k) →
      mapGet (ns.foldl (buildStep hash) st).originalIdIndex k =
        mapGet st.originalIdIndex k := by
  intro ns
  induction ns with
  | nil => intro st k _; rfl
  | cons node rest ih =>
    intro st k hw
    simp only [List.foldl_cons]
    rw [ih (buildStep hash st node) k
      (fun w hwm => hw w (List.mem_cons_of_mem _ hwm))]
    have hstep : (buildStep hash st node).originalIdIndex =
        mapSet (mapSet st.originalIdIndex node.id
            (normalizeId hash st.nodeCounter node.id))
          node.name (normalizeId hash st.nodeCounter node.id) := rfl
    rw [hstep]
    obtain ⟨hid, hname⟩ := hw node (List.mem_cons_self _ _)
    rw [mapGet_mapSet_ne _ _ _ _ (Ne.symm hname),
      mapGet_mapSet_ne _ _ _ _ (Ne.symm hid)]

/-! ## Theorems: the trigram tier of `fuzzySearch` -/

theorem mapSet_keys {β : Type} :
    ∀ (l : List (String × β)) (k : String) (v : β),
      (mapSet l k v).map Prod.fst =
        if k ∈ l.map Prod.fst then l.map Prod.fst
        else l.map Prod.fst ++ [k] := by
  intro l
  induction l with
  | nil => intro k v; simp [mapSet]
  | cons p rest ih =>
    intro k v
    obtain ⟨k', v'⟩ := p
    by_cases h : k' = k
    · subst h
      simp [mapSet, List.map_cons]
    · simp only [mapSet, List.map_cons, if_neg h, ih]
      by_cases hm : k ∈ rest.map Prod.fst
      · rw [if_pos hm, if_pos (List.mem_cons_of_mem _ hm)]
      · have hnc : k ∉ k' :: rest.map Prod.fst := by
          intro hmem
          rcases List.mem_cons.mp hmem with h' | h'
          · exact h h'.symm
          · exact hm h'
        rw [if_neg hm, if_neg hnc]
        rfl

theorem mapSet_keys_nodup {β : Type} (l : List (String × β)) (k : String) (v : β)
    (h : (l.map Prod.fst).Nodup) : ((mapSet l k v).map Prod.fst).Nodup := by
  rw [mapSet_keys]
  by_cases hm : k ∈ l.map Prod.fst
  · rw [if_pos hm]; exact h
  · rw [if_neg hm]
    refine List.Nodup.append h (List.nodup_singleton _) ?_
    intro a ha hb
    rw [List.mem_singleton] at hb
    rw [hb] at ha
    exact hm ha

theorem mapGet_of_mem_nodup {β : Type} :
    ∀ (l : List (String × β)) (k : String) (v : β),
      (l.map Prod.fst).Nodup → (k, v) ∈ l → mapGet l k = some v := by
  intro l
  induction l with
  | nil => intro k v _ hm; cases hm
  | cons p rest ih =>
    intro k v hnd hm
    obtain ⟨k', v'⟩ := p
    simp only [List.map_cons] at hnd
    have hnd' := List.nodup_cons.mp hnd
    simp only [mapGet]
    rcases List.mem_cons.mp hm with heq | hmem
    · simp only [Prod.mk.injEq] at heq
      rw [if_pos heq.1.symm, heq.2]
    · have hk : k' ≠ k := by
        intro he
        have hmm : k ∈ rest.map Prod.fst := List.mem_map_of_mem Prod.fst hmem
        rw [← he] at hmm
        exact hnd'.1 hmm
      rw [if_neg hk]
      exact ih k v hnd'.2 hmem

theorem mapGet_some_mem {β : Type} :
    ∀ (l : List (String × β)) (k : String) (v : β),
      mapGet l k = some v → (k, v) ∈ l := by
  intro l
  induction l with
  | nil => intro k v h; simp [mapGet] at h
  | cons p rest ih =>
    intro k v h
    obtain ⟨k', v'⟩ := p
    simp only [mapGet] at h
    by_cases he : k' = k
    · rw [if_pos he] at h
      rw [← he, ← Option.some.inj h]
      exact List.mem_cons_self _ _
    · rw [if_neg he] at h
      exact List.mem_cons_of_mem _ (ih k v h)

theorem mapGetD_mapSet {β : Type} (l : List (String × β)) (k x : String) (v d : β) :
    mapGetD (mapSet l k v) x d = if x = k then v else mapGetD l x d := by
  by_cases h : x = k
  · subst h
    rw [if_pos rfl]
    show (mapGet (mapSet l x v) x).getD d = v
    rw [mapGet_mapSet_self]
    rfl
  · rw [if_neg h]
    show (mapGet (mapSet l k v) x).getD d = (mapGet l x).getD d
    rw [mapGet_mapSet_ne _ _ _ _ h]

theorem innerFold_val :
    ∀ (b : List String) (m : List (String × Nat)) (x : String), b.Nodup →
      mapGetD (b.foldl (fun m nid => mapSet m nid (mapGetD m nid 0 + 1)) m) x 0 =
        mapGetD m x 0 + (if x ∈ b then 1 else 0) := by
  intro b
  induction b with
  | nil => intro m x _; simp
  | cons nid b ih =>
    intro m x hnd
    obtain ⟨hh, ht⟩ := List.nodup_cons.mp hnd
    simp only [List.foldl_cons]
    rw [ih _ x ht, mapGetD_mapSet]
    by_cases hx : x = nid
    · subst hx
      rw [if_pos rfl, if_neg hh, if_pos (List.mem_cons_self _ _)]
    · rw [if_neg hx]
      by_cases hxb : x ∈ b
      · rw [if_pos hxb, if_pos (List.mem_cons_of_mem _ hxb)]
      · have hnm : x ∉ nid :: b := by
          intro hmem
          rcases List.mem_cons.mp hmem with h' | h'
          · exact hx h'
          · exact hxb h'
        rw [if_neg hxb, if_neg hnm]

theorem innerFold_keys_nodup :
    ∀ (b : List String) (m : List (String × Nat)),
      (m.map Prod.fst).Nodup →
      ((b.foldl (fun m nid => mapSet m nid (mapGetD m nid 0 + 1)) m).map
        Prod.fst).Nodup := by
  intro b
  induction b with
  | nil => intro m h; exact h
  | cons nid b ih =>
    intro m h
    simp only [List.foldl_cons]
    exact ih _ (mapSet_keys_nodup _ _ _ h)

theorem csFold_val (idx : NodeIndex)
    (hb : ∀ t l, mapGet idx.nameTrigrams t = some l → l.Nodup) :
    ∀ (qts : List String) (m : List (String × Nat)) (x : String),
      mapGetD (qts.foldl (csStep idx) m) x 0 =
        mapGetD m x 0 +
          (qts.filter (fun t => x ∈ mapGetD idx.nameTrigrams t [])).length := by
  intro qts
  induction qts with
  | nil => intro m x; simp
  | cons t qts ih =>
    intro m x
    have hbt : (mapGetD idx.nameTrigrams t []).Nodup := by
      cases hmg : mapGet idx.nameTrigrams t with
      | none =>
        show ((mapGet idx.nameTrigrams t).getD []).Nodup
        rw [hmg]
        exact List.nodup_nil
      | some l =>
        show ((mapGet idx.nameTrigrams t).getD []).Nodup
        rw [hmg]
        exact hb t l hmg
    simp only [List.foldl_cons]
    rw [ih _ x]
    simp only [csStep]
    rw [innerFold_val _ _ _ hbt]
    simp only [List.filter_cons]
    by_cases hm : x ∈ mapGetD idx.nameTrigrams t []
    · rw [if_pos hm, if_pos (by simpa using hm)]
      simp only [List.length_cons]
      omega
    · rw [if_neg hm, if_neg (by simpa using hm)]
      omega

theorem csFold_keys_nodup (idx : NodeIndex) :
    ∀ (qts : List String) (m : List (String × Nat)),
      (m.map Prod.fst).Nodup →
      ((qts.foldl (csStep idx) m).map Prod.fst).Nodup := by
  intro qts
  induction qts with
  | nil => intro m h; exact h
  | cons t qts ih =>
    intro m h
    simp only [List.foldl_cons]
    refine ih _ ?_
    simp only [csStep]
    exact innerFold_keys_nodup _ _ h

theorem tierFold_mem (idx : NodeIndex) (nodeType : Option String) (ms qn : ℚ) :
    ∀ (l : List (String × Nat)) (acc : List SearchResult) (r : SearchResult),
      (r ∈ l.foldl (tierFoldStep idx nodeType ms qn) acc ↔
        r ∈ acc ∨ ∃ p ∈ l, tierResult idx nodeType ms qn p = some r) := by
  intro l
  induction l with
  | nil => intro acc r; simp
  | cons p l ih =>
    intro acc r
    simp only [List.foldl_cons]
    rw [ih]
    cases hg : tierResult idx nodeType ms qn p with
    | none =>
      simp only [tierFoldStep, hg]
      constructor
      · rintro (h | ⟨q, hq, hgq⟩)
        · exact Or.inl h
        · exact Or.inr ⟨q, List.mem_cons_of_mem _ hq, hgq⟩
      · rintro (h | ⟨q, hq, hgq⟩)
        · exact Or.inl h
        · rcases List.mem_cons.mp hq with rfl | hq'
          · rw [hg] at hgq
            cases hgq
          · exact Or.inr ⟨q, hq', hgq⟩
    | some b =>
      simp only [tierFoldStep, hg, List.mem_append, List.mem_singleton]
      constructor
      · rintro ((h | h) | ⟨q, hq, hgq⟩)
        · exact Or.inl h
        · exact Or.inr ⟨p, List.mem_cons_self _ _, by rw [hg, h]⟩
        · exact Or.inr ⟨q, List.mem_cons_of_mem _ hq, hgq⟩
      · rintro (h | ⟨q, hq, hgq⟩)
        · exact Or.inl (Or.inl h)
        · rcases List.mem_cons.mp hq with rfl | hq'
          · rw [hg] at hgq
            exact Or.inl (Or.inr (Option.some.inj hgq).symm)
          · exact Or.inr ⟨q, hq', hgq⟩

theorem tierResult_some_iff (idx : NodeIndex) (nodeType : Option String)
    (ms qn : ℚ) (p : String × Nat) (r : SearchResult) :
    tierResult idx nodeType ms qn p = some r ↔
      ms ≤ (p.2 : ℚ) ∧ mapGet idx.nodes p.1 = some r.node ∧
        matchesType r.node nodeType = true ∧
        r = ⟨r.node, (p.2 : ℚ) / qn * (6 / 10), "fuzzy"⟩ := by
  simp only [tierResult]
  constructor
  · intro h
    split at h
    · rename_i hms
      split at h
      · rename_i node hnode
        split at h
        · rename_i hmt
          have hr := Option.some.inj h
          subst hr
          exact ⟨hms, hnode, hmt, rfl⟩
        · exact Option.noConfusion h
      · exact Option.noConfusion h
    · exact Option.noConfusion h
  · rintro ⟨hms, hnode, hmt, hr⟩
    rw [if_pos hms]
    simp only [hnode]
    rw [if_pos hmt]
    exact congrArg some hr.symm

theorem minScore_iff (size c : Nat) (h1 : 1 ≤ size) :
    (max 1 ((size : ℚ) * (3 / 10)) ≤ (c : ℚ)) ↔ 3 * size ≤ 10 * c := by
  rw [max_le_iff]
  constructor
  · rintro ⟨-, hb⟩
    have h : (3 * size : ℚ) ≤ 10 * c := by linarith
    exact_mod_cast h
  · intro h
    have h' : (3 * size : ℚ) ≤ 10 * c := by exact_mod_cast h
    have hc1 : (1 : ℚ) ≤ (c : ℚ) := by
      have hc : 1 ≤ c := by omega
      exact_mod_cast hc
    exact ⟨hc1, by linarith⟩

theorem candidateScoresOf_val (idx : NodeIndex)
    (hb : ∀ t l, mapGet idx.nameTrigrams t = some l → l.Nodup)
    (qts : List String) (x : String) :
    mapGetD (candidateScoresOf idx qts) x 0 =
      (qts.filter (fun t => x ∈ mapGetD idx.nameTrigrams t [])).length := by
  have h := csFold_val idx hb qts [] x
  have h00 : mapGetD ([] : List (String × Nat)) x 0 = 0 := rfl
  rw [h00, Nat.zero_add] at h
  exact h

theorem fuzzy_core_mem_iff (idx : NodeIndex) (nodeType : Option String)
    (qts : List String) (r : SearchResult) (hsz : 1 ≤ qts.length)
    (hb : ∀ t l, mapGet idx.nameTrigrams t = some l → l.Nodup) :
    r ∈ (candidateScoresOf idx qts).foldl
        (tierFoldStep idx nodeType (max 1 ((qts.length : ℚ) * (3 / 10)))
          (qts.length : ℚ)) [] ↔
      ∃ nid, mapGet idx.nodes nid = some r.node ∧
        matchesType r.node nodeType = true ∧
        3 * qts.length ≤
          10 * (qts.filter (fun t => nid ∈ mapGetD idx.nameTrigrams t [])).length ∧
        r.score =
          ((qts.filter (fun t => nid ∈ mapGetD idx.nameTrigrams t [])).length : ℚ) /
            (qts.length : ℚ) * (6 / 10) ∧
        r.reason = "fuzzy" := by
  rw [tierFold_mem]
  simp only [List.not_mem_nil, false_or]
  constructor
  · rintro ⟨p, hp, htr⟩
    rw [tierResult_some_iff] at htr
    obtain ⟨hms, hnode, hmt, hr⟩ := htr
    have hkeysnd : ((candidateScoresOf idx qts).map Prod.fst).Nodup :=
      csFold_keys_nodup idx qts [] List.nodup_nil
    have hget : mapGet (candidateScoresOf idx qts) p.1 = some p.2 :=
      mapGet_of_mem_nodup _ _ _ hkeysnd hp
    have hval := candidateScoresOf_val idx hb qts p.1
    have h0 : mapGetD (candidateScoresOf idx qts) p.1 0 = p.2 := by
      show (mapGet (candidateScoresOf idx qts) p.1).getD 0 = p.2
      rw [hget]
      rfl
    have hv2 : p.2 =
        (qts.filter (fun t => p.1 ∈ mapGetD idx.nameTrigrams t [])).length := by
      rw [← h0, hval]
    refine ⟨p.1, hnode, hmt, ?_, ?_, ?_⟩
    · rw [← hv2]
      exact (minScore_iff qts.length p.2 hsz).mp hms
    · have hscore : r.score = (p.2 : ℚ) / (qts.length : ℚ) * (6 / 10) := by
        rw [hr]
      rw [hscore, hv2]
    · rw [hr]
  · rintro ⟨nid, hnode, hmt, hth, hscore, hreason⟩
    have hc1 : 1 ≤
        (qts.filter (fun t => nid ∈ mapGetD idx.nameTrigrams t [])).length := by
      omega
    have hval := candidateScoresOf_val idx hb qts nid
    have hget : mapGet (candidateScoresOf idx qts) nid =
        some (qts.filter (fun t => nid ∈ mapGetD idx.nameTrigrams t [])).length := by
      cases hmg : mapGet (candidateScoresOf idx qts) nid with
      | none =>
        exfalso
        have hz : mapGetD (candidateScoresOf idx qts) nid 0 = 0 := by
          show (mapGet (candidateScoresOf idx qts) nid).getD 0 = 0
          rw [hmg]
          rfl
        omega
      | some c' =>
        have hz : mapGetD (candidateScoresOf idx qts) nid 0 = c' := by
          show (mapGet (candidateScoresOf idx qts) nid).getD 0 = c'
          rw [hmg]
          rfl
        rw [hz] at hval
        rw [hval]
    have hp : (nid,
        (qts.filter (fun t => nid ∈ mapGetD idx.nameTrigrams t [])).length) ∈
        candidateScoresOf idx qts := mapGet_some_mem _ _ _ hget
    refine ⟨_, hp, ?_⟩
    rw [tierResult_some_iff]
    refine ⟨(minScore_iff qts.length _ hsz).mpr hth, hnode, hmt, ?_⟩
    obtain ⟨rn, rs, rr⟩ := r
    simp only at hscore hreason ⊢
    rw [hscore, hreason]

theorem fuzzySearch_mem_iff (idx : NodeIndex) (query : String)
    (nodeType : Option String) (r : SearchResult)
    (hq : 3 ≤ query.length)
    (hsz : 1 ≤ (jsSetOf (trigramsOf (strToLower query))).length)
    (hb : ∀ t l, mapGet idx.nameTrigrams t = some l → l.Nodup) :
    r ∈ fuzzySearch idx query nodeType ↔
      ∃ nid, mapGet idx.nodes nid = some r.node ∧
        matchesType r.node nodeType = true ∧
        3 * (jsSetOf (trigramsOf (strToLower query))).length ≤
          10 * ((jsSetOf (trigramsOf (strToLower query))).filter
            (fun t => nid ∈ mapGetD idx.nameTrigrams t [])).length ∧
        r.score =
          (((jsSetOf (trigramsOf (strToLower query))).filter
              (fun t => nid ∈ mapGetD idx.nameTrigrams t [])).length : ℚ) /
            ((jsSetOf (trigramsOf (strToLower query))).length : ℚ) * (6 / 10) ∧
        r.reason = "fuzzy" := by
  have hunf : fuzzySearch idx query nodeType =
      ((candidateScoresOf idx (jsSetOf (trigramsOf (strToLower query)))).foldl
        (tierFoldStep idx nodeType
          (max 1 (((jsSetOf (trigramsOf (strToLower query))).length : ℚ) *
            (3 / 10)))
          ((jsSetOf (trigramsOf (strToLower query))).length : ℚ))
        []).mergeSort (fun a b => b.score ≤ a.score) := by
    unfold fuzzySearch
    rw [if_neg (by omega)]
  rw [hunf, List.mem_mergeSort]
  exact fuzzy_core_mem_iff idx nodeType _ r hsz hb

theorem idxFoo_trigram_buckets_nodup :
    ∀ t l, mapGet idxFoo.nameTrigrams t = some l → l.Nodup := by
  intro t l h
  have hnt : idxFoo.nameTrigrams = [("foo", ["node_1_h"])] := rfl
  rw [hnt] at h
  simp only [mapGet] at h
  by_cases he : "foo" = t
  · rw [if_pos he] at h
    rw [← Option.some.inj h]
    decide
  · rw [if_neg he] at h
    cases h

/-! ## Claim theorems: concrete evaluations -/

/-- C1 (code_bug evidence).  `exploreGraph` with `depth = 0` does **not**
return only the root: `options.depth || 2` turns the falsy `0` into the
default `2`, so on the graph `a -> b` the result contains both nodes, the
edge, and `exploredDepth = 2` — while the claim (and the loop's own
`level >= depth` guard) require exactly the root node and no edges. -/
theorem explore_depth_zero_uses_default_depth :
    exploreGraph (some gAB) (some nA) { depth := 0 } =
      .ok ⟨[nA, nB], [eAB], some "a", 2, false, 2⟩ := by
  rfl

/-- C2 (counterexample).  On the synthetic 3-cycle the claim "exactly one
cycle" is false: the canonical key is the exact rotation
(`"a->b->c"` vs `"b->c->a"` vs `"c->a->b"`), so the DFS from each of the
three start nodes records the same cycle once per rotation — three cycles,
not one. -/
theorem triangle_cycle_count_is_three :
    (findCircularDependenciesInGraph gTri 10).length = 3 ∧
      (findCircularDependenciesInGraph gTri 10).length ≠ 1 := by
  exact ⟨rfl, by decide⟩

/-- C2 (amended).  `findCircularDependencies` on the synthetic 3-cycle
returns exactly three cycles — one per starting rotation — each of length 3,
severity `low`, and involved types `{Function}`; deduplication by the
ordered node-id sequence makes each rotation appear exactly once. -/
theorem triangle_cycles_three_rotations :
    findCircularDependenciesInGraph gTri 10 =
      [{ path := [triA, triB, triC], severity := "low", cycleLength := 3,
         involvedTypes := ["Function"] },
       { path := [triB, triC, triA], severity := "low", cycleLength := 3,
         involvedTypes := ["Function"] },
       { path := [triC, triA, triB], severity := "low", cycleLength := 3,
         involvedTypes := ["Function"] }] := by
  rfl

/-- C4 (code_bug evidence).  The cycle DFS has no path-length bound beyond
the per-path visited set: on an acyclic chain of n nodes it explores a path
of length exactly n (growing without bound in the size of the input), and
the recursion depth grows likewise — the source's `dfs` is plain
language-level recursion, not an explicit-stack iteration. -/
theorem cycle_dfs_explores_unbounded_paths :
    maxExploredPathLen (chainGraph 5) = 5 ∧
      maxExploredPathLen (chainGraph 9) = 9 ∧
      maxExploredPathLen gTri = 3 := by
  exact ⟨rfl, rfl, rfl⟩

/-- C10.  Path finding follows only outgoing edges, so it is directional:
on the graph with the single edge `a -> b`, the path from A to B is found
(one hop) while the search from B to A reports not-found. -/
theorem findPath_directional :
    findPath (some gAB) (some nA) (some nB) [] 5 =
        .ok ⟨[some nA, some nB], [eAB], 1, true⟩ ∧
      findPath (some gAB) (some nB) (some nA) [] 5 = .ok ⟨[], [], 0, false⟩ := by
  exact ⟨rfl, rfl⟩

/-- C6 (counterexample).  With `maxDepth = 0` the claim requires not-found
for any target that needs at least one hop; but `options.maxDepth || 10`
turns the falsy `0` into `10`, and the one-hop path `a -> b` is found. -/
theorem findPath_maxDepth_zero_finds_one_hop :
    findPath (some gAB) (some nA) (some nB) [] 0 =
      .ok ⟨[some nA, some nB], [eAB], 1, true⟩ := by
  rfl

/-- C3 (counterexample).  Two concrete refutations of the claimed
"truncated iff reachable count strictly greater than maxNodes":
with `maxNodes = 2` and exactly 2 reachable nodes (not `> 2`) the flag is
set; with `maxNodes = 1` and 2 reachable nodes (`> 1`) the loop never runs
and the flag stays false. -/
theorem explore_truncated_at_exact_maxNodes :
    (exploreGraph (some gAB) (some nA) { depth := 1, maxNodes := 2 } =
        .ok ⟨[nA, nB], [eAB], some "a", 1, true, 2⟩ ∧
      (specReachable gAB { depth := 1, maxNodes := 2 } "a" 1).length = 2) ∧
      (exploreGraph (some gAB) (some nA) { depth := 1, maxNodes := 1 } =
        .ok ⟨[nA], [], some "a", 1, false, 2⟩ ∧
      (specReachable gAB { depth := 1, maxNodes := 1 } "a" 1).length = 2) := by
  exact ⟨⟨rfl, rfl⟩, ⟨rfl, rfl⟩⟩

/-- C7 (counterexample).  `buildIndexes` also registers every node *name*
in the original-id map, overwriting earlier entries: with node A
(original id `"x"`) indexed before node B (name `"x"`), looking A up by its
original id returns B's indexed copy, while looking it up by its canonical
id `node_1_h` returns A — the two lookups disagree. -/
theorem getNode_original_canonical_mismatch :
    idxC7.getNode "x" = some (withCanonicalId c7B "node_2_h") ∧
      idxC7.getNode "node_1_h" = some (withCanonicalId c7A "node_1_h") ∧
      idxC7.getNode "x" ≠ idxC7.getNode "node_1_h" := by
  exact ⟨rfl, rfl, by decide⟩

/-- C8.  When the node lookup resolves a query to nothing, the three
node-scoped operations return their empty/null result (`Except.ok` with
empty collections), not an exception — even before the graph is fetched. -/
theorem node_not_found_empty_results (gOpt : Option KnowledgeGraph)
    (lookup : String → Option GraphNode) (q : String) (o : ExploreOptions)
    (d : Direction) (h : lookup q = none) :
    exploreGraph gOpt (lookup q) o = .ok ⟨[], [], none, 0, false, 0⟩ ∧
      findDependencies gOpt (lookup q) d = .ok ⟨none, [], [], 0, 0⟩ ∧
      getNodeDetails gOpt (lookup q) = .ok ⟨none, [], [], [], none⟩ := by
  rw [h]
  exact ⟨rfl, rfl, rfl⟩

/-- C8 witness: concrete instantiation (empty lookup on the `a -> b`
graph). -/
theorem node_not_found_empty_results_witness :
    (fun _ : String => (none : Option GraphNode)) "missing" = none ∧
      exploreGraph (some gAB) ((fun _ : String => (none : Option GraphNode)) "missing")
          { depth := 2 } = .ok ⟨[], [], none, 0, false, 0⟩ ∧
      findDependencies (some gAB) ((fun _ : String => (none : Option GraphNode)) "missing")
          .both = .ok ⟨none, [], [], 0, 0⟩ ∧
      getNodeDetails (some gAB) ((fun _ : String => (none : Option GraphNode)) "missing") =
        .ok ⟨none, [], [], [], none⟩ := by
  refine ⟨rfl, ?_⟩
  exact node_not_found_empty_results (some gAB) (fun _ => none) "missing"
    { depth := 2 } .both rfl |>.1 |> (fun h1 =>
      ⟨h1, (node_not_found_empty_results (some gAB) (fun _ => none) "missing"
        { depth := 2 } .both rfl).2⟩)

/-- C9.  Canonical ids never collide: for every hash function and every
input graph — including graphs where nodes share original ids or hash
prefixes — the keys of the nodes map built by `buildIndexes` are pairwise
distinct and the map holds exactly one entry per ingested node.  Freshness
comes from the incrementing counter embedded in each id by `normalizeId`
alone. -/
theorem canonical_ids_distinct (hash : String → String) (g : KnowledgeGraph) :
    ((buildIndexes hash g).nodes.map Prod.fst).Nodup ∧
      (buildIndexes hash g).nodes.length = g.nodes.length := by
  obtain ⟨-, hnd, hlen⟩ := buildFold_nodes_keys hash g.nodes {}
    (fun k hk => absurd hk (List.not_mem_nil k)) List.nodup_nil
  have hz : ({} : NodeIndex).nodes.length = 0 := rfl
  rw [hz, Nat.zero_add] at hlen
  exact ⟨hnd, hlen⟩

/-- C7 (amended).  Lookups by original and canonical id agree for a node
`v` provided (a) `v.id` is not itself one of the generated canonical keys
and (b) no node indexed after `v` has `v.id` as its id *or as its name* —
the name registration of later nodes overwrites `v`'s original-id entry.
Under those conditions both lookups return `v`'s indexed copy, whose
canonical id embeds the counter value `pre.length + 1`. -/
theorem getNode_original_eq_canonical (hash : String → String)
    (g : KnowledgeGraph) (pre post : List GraphNode) (v : GraphNode)
    (hg : g.nodes = pre ++ v :: post)
    (h1 : mapGet (buildIndexes hash g).nodes v.id = none)
    (h2 : ∀ w ∈ post, w.id ≠ v.id ∧ w.name ≠ v.id) :
    (buildIndexes hash g).getNode v.id =
      some (withCanonicalId v (normalizeId hash pre.length v.id)) ∧
    (buildIndexes hash g).getNode (normalizeId hash pre.length v.id) =
      some (withCanonicalId v (normalizeId hash pre.length v.id)) := by
  have hfold : buildIndexes hash g =
      post.foldl (buildStep hash)
        (buildStep hash (pre.foldl (buildStep hash) {}) v) := by
    unfold buildIndexes
    rw [hg, List.foldl_append, List.foldl_cons]
  have hc0 : (pre.foldl (buildStep hash) ({} : NodeIndex)).nodeCounter =
      pre.length := by
    rw [fold_counter hash pre {}]
    show 0 + pre.length = pre.length
    omega
  have hkey : normalizeId hash
        (pre.foldl (buildStep hash) ({} : NodeIndex)).nodeCounter v.id =
      normalizeId hash pre.length v.id := by rw [hc0]
  have hn1 : mapGet (buildStep hash (pre.foldl (buildStep hash) {}) v).nodes
      (normalizeId hash pre.length v.id) =
      some (withCanonicalId v (normalizeId hash pre.length v.id)) := by
    have hstep : (buildStep hash (pre.foldl (buildStep hash) ({} : NodeIndex)) v).nodes =
        mapSet (pre.foldl (buildStep hash) ({} : NodeIndex)).nodes
          (normalizeId hash
            (pre.foldl (buildStep hash) ({} : NodeIndex)).nodeCounter v.id)
          (withCanonicalId v (normalizeId hash
            (pre.foldl (buildStep hash) ({} : NodeIndex)).nodeCounter v.id)) := rfl
    rw [hstep, hkey]
    exact mapGet_mapSet_self _ _ _
  have horig1 : mapGet
      (buildStep hash (pre.foldl (buildStep hash) {}) v).originalIdIndex v.id =
      some (normalizeId hash pre.length v.id) := by
    have hstep : (buildStep hash (pre.foldl (buildStep hash) ({} : NodeIndex)) v).originalIdIndex =
        mapSet (mapSet (pre.foldl (buildStep hash) ({} : NodeIndex)).originalIdIndex
            v.id (normalizeId hash
              (pre.foldl (buildStep hash) ({} : NodeIndex)).nodeCounter v.id))
          v.name (normalizeId hash
            (pre.foldl (buildStep hash) ({} : NodeIndex)).nodeCounter v.id) := rfl
    rw [hstep, hkey]
    by_cases hvn : v.name = v.id
    · rw [hvn]
      exact mapGet_mapSet_self _ _ _
    · rw [mapGet_mapSet_ne _ _ _ _ (fun he => hvn he.symm)]
      exact mapGet_mapSet_self _ _ _
  have hc1 : (buildStep hash (pre.foldl (buildStep hash) ({} : NodeIndex)) v).nodeCounter =
      pre.length + 1 := by
    show (pre.foldl (buildStep hash) ({} : NodeIndex)).nodeCounter + 1 =
      pre.length + 1
    omega
  have hcform : normalizeId hash pre.length v.id =
      "node_" ++ Nat.repr (pre.length + 1) ++ "_" ++ (hash v.id).take 8 := rfl
  have hpres_nodes : mapGet (buildIndexes hash g).nodes
      (normalizeId hash pre.length v.id) =
      some (withCanonicalId v (normalizeId hash pre.length v.id)) := by
    rw [hfold, hcform]
    rw [fold_nodes_get_preserved hash post _ (pre.length + 1)
      ((hash v.id).take 8) (by rw [hc1])]
    rw [← hcform]
    exact hn1
  have hpres_orig : mapGet (buildIndexes hash g).originalIdIndex v.id =
      some (normalizeId hash pre.length v.id) := by
    rw [hfold, fold_orig_get_preserved hash post _ v.id h2]
    exact horig1
  constructor
  · unfold NodeIndex.getNode
    simp only [h1, hpres_orig, hpres_nodes]
  · unfold NodeIndex.getNode
    simp only [hpres_nodes]

/-- C7 amended-theorem witness: the single-node graph `gFoo`, where no
later node can clobber the original-id entry. -/
theorem getNode_original_eq_canonical_witness :
    gFoo.nodes = [] ++ fooNode :: [] ∧
      mapGet (buildIndexes hashH gFoo).nodes fooNode.id = none ∧
      ((buildIndexes hashH gFoo).getNode fooNode.id =
        some (withCanonicalId fooNode (normalizeId hashH 0 fooNode.id)) ∧
      (buildIndexes hashH gFoo).getNode (normalizeId hashH 0 fooNode.id) =
        some (withCanonicalId fooNode (normalizeId hashH 0 fooNode.id))) := by
  refine ⟨rfl, rfl, ?_⟩
  exact getNode_original_eq_canonical hashH gFoo [] [] fooNode rfl rfl
    (fun w hw => absurd hw (List.not_mem_nil w))

/-- C5.  The trigram tier of `fuzzySearch`: for a query of length at least
3 with at least one trigram, over an index whose trigram buckets are
duplicate-free (they are JS `Set`s in the source), a result is returned iff
some indexed node id resolves to its node, passes the type filter, and
overlaps the query in at least 30% of the query's trigrams (the
`max(1, …)` floor is immaterial: any counted candidate shares at least one
trigram), with score = overlap ratio × 0.6.  Concretely, the node named
`"foo"` is returned for the query `"fooo"` (trigram sets {foo} and
{foo, ooo}) with score `1/2 × 0.6 = 0.3`. -/
theorem fuzzySearch_trigram_tier (idx : NodeIndex) (query : String)
    (nodeType : Option String) (r : SearchResult)
    (hq : 3 ≤ query.length)
    (hsz : 1 ≤ (jsSetOf (trigramsOf (strToLower query))).length)
    (hb : ∀ t l, mapGet idx.nameTrigrams t = some l → l.Nodup) :
    (r ∈ fuzzySearch idx query nodeType ↔
      ∃ nid, mapGet idx.nodes nid = some r.node ∧
        matchesType r.node nodeType = true ∧
        3 * (jsSetOf (trigramsOf (strToLower query))).length ≤
          10 * ((jsSetOf (trigramsOf (strToLower query))).filter
            (fun t => nid ∈ mapGetD idx.nameTrigrams t [])).length ∧
        r.score =
          (((jsSetOf (trigramsOf (strToLower query))).filter
              (fun t => nid ∈ mapGetD idx.nameTrigrams t [])).length : ℚ) /
            ((jsSetOf (trigramsOf (strToLower query))).length : ℚ) * (6 / 10) ∧
        r.reason = "fuzzy") ∧
      (⟨withCanonicalId fooNode "node_1_h", 3 / 10, "fuzzy"⟩ : SearchResult) ∈
        fuzzySearch idxFoo "fooo" none := by
  refine ⟨fuzzySearch_mem_iff idx query nodeType r hq hsz hb, ?_⟩
  rw [fuzzySearch_mem_iff idxFoo "fooo" none _ (by decide) (by decide)
    idxFoo_trigram_buckets_nodup]
  refine ⟨"node_1_h", by decide, by decide, by decide, ?_, rfl⟩
  have h1 : ((jsSetOf (trigramsOf (strToLower "fooo"))).filter
      (fun t => "node_1_h" ∈ mapGetD idxFoo.nameTrigrams t [])).length = 1 := by
    decide
  have h2 : (jsSetOf (trigramsOf (strToLower "fooo"))).length = 2 := by decide
  rw [h1, h2]
  show (3 / 10 : ℚ) = _
  norm_num

/-- C5 witness: the `"foo"` / `"fooo"` instance, hypotheses discharged
concretely. -/
theorem fuzzySearch_trigram_tier_witness :
    3 ≤ ("fooo" : String).length ∧
      1 ≤ (jsSetOf (trigramsOf (strToLower "fooo"))).length ∧
      (⟨withCanonicalId fooNode "node_1_h", 3 / 10, "fuzzy"⟩ : SearchResult) ∈
        fuzzySearch idxFoo "fooo" none := by
  refine ⟨by decide, by decide, ?_⟩
  exact (fuzzySearch_trigram_tier idxFoo "fooo" none
    ⟨withCanonicalId fooNode "node_1_h", 3 / 10, "fuzzy"⟩
    (by decide) (by decide) idxFoo_trigram_buckets_nodup).2

end KGraph
